import Mathlib

/-!
# Verification of the bsf reflective object serialization system

Shallow embedding of the reflection / serialization core described by the
repository specification, together with models of the `RTTIField` metadata
structure (`src/BansheeUtility/Include/BsRTTIField.h`) and of
`GUIElement::setLayoutOptions` (`src/BansheeEngine/Source/BsGUIElement.cpp`).

The graph serializer / deserializer themselves are not present under `src/`
(only the field metadata header is), so the codec below is modelled from the
specification, faithfully following sections 3, 4.3, 4.4 and 6:
objects are nodes of a heap addressed by object ids, fields are keyed by
`fieldId`, the encoder walks the graph assigning sequential reference ids and
emitting one record per object, and the decoder rebuilds objects from records,
wiring `ReflectablePtr` fields either immediately or through a fix-up queue.
-/

namespace BsfSerial

/-- Value held by one serializable field: plain data, a raw data block, or a
pointer to another reflectable object (identified by its heap object id;
`none` models a null pointer). -/
inductive Val
  | plain (v : Nat)
  | block (bytes : List Nat)
  | ptr (target : Option Nat)
deriving DecidableEq, Repr

/-- Kind of a serializable field, mirroring `SerializableFieldType` for the
kinds exercised by the graph codec; a `ReflectablePtr` field carries its
weak-reference flag (`RTTI_Flag_WeakRef`). -/
inductive FieldKind
  | plain
  | dataBlock
  | reflectablePtr (weak : Bool)
deriving DecidableEq, Repr

/-- Field descriptor: identity (`fieldId`) plus kind, per spec section 3. -/
structure FieldDesc where
  fieldId : Nat
  kind : FieldKind
deriving DecidableEq, Repr

/-- Type descriptor: type identity, version and the ordered field list,
per spec section 3. -/
structure TypeDesc where
  typeId : Nat
  typeVersion : Nat
  fields : List FieldDesc
deriving DecidableEq, Repr

/-- Type registry: mapping from type id to type descriptor. -/
abbrev Registry := List TypeDesc

/-- Look up a type descriptor by type id. -/
def findType (R : Registry) (tid : Nat) : Option TypeDesc :=
  R.find? (fun td => td.typeId == tid)

/-- A reflectable object: its type id and its field values keyed by field id. -/
structure Obj where
  typeId : Nat
  fields : List (Nat × Val)
deriving DecidableEq, Repr

/-- An object graph: a heap of objects addressed by object id, plus the
serialization root. -/
structure Graph where
  heap : List (Nat × Obj)
  root : Nat
deriving DecidableEq, Repr

/-- Fetch the object stored at address `a`. -/
def Graph.get (G : Graph) (a : Nat) : Option Obj :=
  (G.heap.find? (fun p => p.1 == a)).map Prod.snd

/-- Addresses of the heap. -/
def Graph.keys (G : Graph) : List Nat := G.heap.map Prod.fst

/-- Default value for a field of the given kind (the value a blank,
default-constructed instance holds before any field is populated). -/
def defaultVal : FieldKind → Val
  | .plain => .plain 0
  | .dataBlock => .block []
  | .reflectablePtr _ => .ptr none

/-! ## Wire records

The stream is a sequence of object records (spec section 6); the record layer
is the structured form of the stream, related to raw tokens by
`serialize` / `parse` below. -/

/-- Encoded field value: plain payload, data block payload, or a reference id
of the target object (`none` models an encoded null pointer). -/
inductive RVal
  | rplain (v : Nat)
  | rblock (bytes : List Nat)
  | rptr (target : Option Nat)
deriving DecidableEq, Repr

/-- Encoded field: the field id and its encoded value. -/
structure RField where
  fieldId : Nat
  val : RVal
deriving DecidableEq, Repr

/-- Encoded object record: reference id, type id, type version and the
encoded fields. -/
structure Record where
  refId : Nat
  typeId : Nat
  typeVersion : Nat
  fields : List RField
deriving DecidableEq, Repr

/-! ## Graph walker (encode side, spec section 4.3) -/

/-- Encoder traversal state: the object-id to reference-id assignment, the
next fresh reference id, the set of objects already scheduled for emission,
and the objects newly scheduled while emitting the current record. -/
structure WalkSt where
  idOf : List (Nat × Nat)
  nextId : Nat
  seen : List Nat
  newq : List Nat
deriving DecidableEq, Repr

/-- Reference id already assigned to object `a`, if any. -/
def WalkSt.lookupId (st : WalkSt) (a : Nat) : Option Nat :=
  (st.idOf.find? (fun p => p.1 == a)).map Prod.snd

/-- Assign a reference id to object `a` on first encounter
(spec section 4.3: ids are assigned sequentially in traversal order). -/
def assignId (st : WalkSt) (a : Nat) : Nat × WalkSt :=
  match st.lookupId a with
  | some i => (i, st)
  | none => (st.nextId,
      { st with idOf := st.idOf ++ [(a, st.nextId)], nextId := st.nextId + 1 })

/-- Schedule object `a` for emission through a non-weak edge, unless it was
already scheduled. -/
def touchStrong (st : WalkSt) (a : Nat) : WalkSt :=
  if a ∈ st.seen then st
  else { st with seen := st.seen ++ [a], newq := st.newq ++ [a] }

/-- Default encoded value for a field kind (used only on a kind/value
mismatch, which well-formed graphs exclude). -/
def defaultRVal : FieldKind → RVal
  | .plain => .rplain 0
  | .dataBlock => .rblock []
  | .reflectablePtr _ => .rptr none

/-- Encode one field value. A `ReflectablePtr` target receives a reference id
on first encounter; a non-weak edge also schedules the target for emission,
while a weak edge only emits the reference id without forcing a visit
(spec section 4.3). -/
def walkVal (kind : FieldKind) (v : Val) (st : WalkSt) : RVal × WalkSt :=
  match kind, v with
  | .plain, .plain n => (.rplain n, st)
  | .dataBlock, .block bs => (.rblock bs, st)
  | .reflectablePtr _, .ptr none => (.rptr none, st)
  | .reflectablePtr weak, .ptr (some a) =>
      let (i, st1) := assignId st a
      let st2 := if weak then st1 else touchStrong st1 a
      (.rptr (some i), st2)
  | k, _ => (defaultRVal k, st)

/-- Encode the fields of one object, iterating the type descriptor's field
list in order and reading each value by field id. -/
def walkFields (o : Obj) : List FieldDesc → WalkSt → List RField × WalkSt
  | [], st => ([], st)
  | fd :: rest, st =>
      let v := ((o.fields.find? (fun p => p.1 == fd.fieldId)).map Prod.snd).getD
        (defaultVal fd.kind)
      let (rv, st1) := walkVal fd.kind v st
      let (rs, st2) := walkFields o rest st1
      (⟨fd.fieldId, rv⟩ :: rs, st2)

/-- Emit the record of one object: its reference id, type id, type version
and encoded fields. -/
def walkObj (R : Registry) (G : Graph) (a : Nat) (st : WalkSt) :
    Option (Record × WalkSt) :=
  match G.get a with
  | none => none
  | some o =>
      match findType R o.typeId with
      | none => none
      | some td =>
          let i := (st.lookupId a).getD 0
          let (rfs, st1) := walkFields o td.fields st
          some (⟨i, o.typeId, td.typeVersion, rfs⟩, st1)

/-- Emission loop: process the pending queue, each object exactly once; the
objects newly scheduled by a record are visited immediately after it
(depth-first by object). The fuel bounds the number of emitted records. -/
def walkLoop (R : Registry) (G : Graph) :
    Nat → List Nat → WalkSt → Option (List Record × WalkSt)
  | _, [], st => some ([], st)
  | 0, _ :: _, _ => none
  | fuel + 1, a :: rest, st =>
      match walkObj R G a { st with newq := [] } with
      | none => none
      | some (rec, st1) =>
          (walkLoop R G fuel (st1.newq ++ rest) { st1 with newq := [] }).map
            (fun p => (rec :: p.1, p.2))

/-- Walk the graph from the root, producing the record sequence and the final
traversal state. The root is assigned reference id 0. -/
def walkFull (R : Registry) (G : Graph) : Option (List Record × WalkSt) :=
  walkLoop R G G.heap.length [G.root]
    { idOf := [(G.root, 0)], nextId := 1, seen := [G.root], newq := [] }

/-- Walk the graph from the root, producing the record sequence. -/
def walk (R : Registry) (G : Graph) : Option (List Record) :=
  (walkFull R G).map Prod.fst

/-! ## Token layer (spec section 6)

Each record is framed as `refId, typeId, typeVersion, fieldCount, fields`;
each field as `fieldId, kindTag, isArrayFlag, payloadLength, payload`, so
that any field value can be skipped knowing only its length. -/

/-- Kind tag and payload of an encoded value. A pointer payload encodes
`none` as `0` and reference id `i` as `i + 1`. -/
def encRVal : RVal → Nat × List Nat
  | .rplain v => (0, [v])
  | .rblock bs => (1, bs)
  | .rptr none => (3, [0])
  | .rptr (some i) => (3, [i + 1])

/-- Token framing of one field. -/
def encField (f : RField) : List Nat :=
  let (tag, payload) := encRVal f.val
  f.fieldId :: tag :: 0 :: payload.length :: payload

/-- Token framing of one record. -/
def encRecord (r : Record) : List Nat :=
  r.refId :: r.typeId :: r.typeVersion :: r.fields.length ::
    (r.fields.map encField).flatten

/-- Token framing of a record sequence. -/
def serialize (rs : List Record) : List Nat := (rs.map encRecord).flatten

/-- Interpret the payload of one encoded value, by its kind tag. -/
def parseValCore (tag : Nat) (payload : List Nat) : Option RVal :=
  match tag with
  | 0 => match payload with
         | [v] => some (.rplain v)
         | _ => none
  | 1 => some (.rblock payload)
  | 3 => match payload with
         | [0] => some (.rptr none)
         | [Nat.succ i] => some (.rptr (some i))
         | _ => none
  | _ => none

/-- Parse one encoded value given its kind tag and payload length; consumes
exactly `len` tokens of payload. -/
def parseVal (tag len : Nat) (toks : List Nat) : Option (RVal × List Nat) :=
  if len ≤ toks.length then
    (parseValCore tag (toks.take len)).map (fun rv => (rv, toks.drop len))
  else none

/-- Parse `n` encoded fields. -/
def parseFields : Nat → List Nat → Option (List RField × List Nat)
  | 0, toks => some ([], toks)
  | n + 1, fid :: tag :: _arr :: len :: rest =>
      match parseVal tag len rest with
      | none => none
      | some (rv, rest1) =>
          match parseFields n rest1 with
          | none => none
          | some (fs, rest2) => some (⟨fid, rv⟩ :: fs, rest2)
  | _ + 1, _ => none

/-- Parse a sequence of records until the stream is exhausted. -/
def parseRecords : Nat → List Nat → Option (List Record)
  | _, [] => some []
  | 0, _ :: _ => none
  | fuel + 1, rid :: tid :: tv :: fc :: rest =>
      match parseFields fc rest with
      | none => none
      | some (fs, rest1) =>
          match parseRecords fuel rest1 with
          | none => none
          | some rs => some (⟨rid, tid, tv, fs⟩ :: rs)
  | _ + 1, _ => none

/-- Parse a token stream into records. -/
def parse (toks : List Nat) : Option (List Record) :=
  parseRecords toks.length toks

/-! ## Graph resolver (decode side, spec section 4.4) -/

/-- A deferred pointer assignment: holder reference id, field id, and the
target reference id whose object has not been constructed yet. -/
structure Fixup where
  holder : Nat
  fieldId : Nat
  target : Nat
deriving DecidableEq, Repr

/-- Decoder state: the heap of (possibly still incomplete) constructed
objects keyed by reference id, and the pending fix-up queue. -/
structure DecState where
  heap : List (Nat × Obj)
  fixups : List Fixup
deriving DecidableEq, Repr

/-- Decoding errors, per spec section 7. -/
inductive DecodeError
  | unknownType (typeId : Nat)
  | danglingReference (refId : Nat)
  | malformedStream
deriving DecidableEq, Repr

/-- Blank instance of a type: every declared field at its default value. -/
def blankObj (td : TypeDesc) : Obj :=
  ⟨td.typeId, td.fields.map (fun fd => (fd.fieldId, defaultVal fd.kind))⟩

/-- Overwrite the value of field `fid` of an object. -/
def setField (o : Obj) (fid : Nat) (v : Val) : Obj :=
  ⟨o.typeId, o.fields.map (fun p => if p.1 == fid then (p.1, v) else p)⟩

/-- Update the object stored under reference id `rid`. -/
def heapUpdate (h : List (Nat × Obj)) (rid : Nat) (f : Obj → Obj) :
    List (Nat × Obj) :=
  h.map (fun p => if p.1 == rid then (p.1, f p.2) else p)

/-- Wire one field of a holder if a pending fix-up for it targets the newly
constructed reference id `rid`. -/
def wireField (rid : Nat) (fxs : List Fixup) (holder : Nat) (p : Nat × Val) :
    Nat × Val :=
  if (⟨holder, p.1, rid⟩ : Fixup) ∈ fxs then (p.1, .ptr (some rid)) else p

/-- Resolve every pending fix-up whose target reference id just got
constructed: wire the recorded holder fields and drop those fix-ups. -/
def resolveFixups (st : DecState) (rid : Nat) : DecState :=
  ⟨st.heap.map (fun q =>
      (q.1, ⟨q.2.typeId, q.2.fields.map (wireField rid st.fixups q.1)⟩)),
   st.fixups.filter (fun fx => fx.target != rid)⟩

/-- Decode one encoded field into the object under construction. A field id
the type descriptor does not declare is skipped (schema forward
compatibility); a pointer field is wired immediately when its target already
exists, and otherwise enqueues a fix-up. -/
def buildField (td : TypeDesc) (rid : Nat) (f : RField) (st : DecState) :
    Except DecodeError DecState :=
  match td.fields.find? (fun fd => fd.fieldId == f.fieldId) with
  | none => .ok st
  | some fd =>
      match fd.kind, f.val with
      | .plain, .rplain v =>
          .ok ⟨heapUpdate st.heap rid (fun o => setField o f.fieldId (.plain v)),
               st.fixups⟩
      | .dataBlock, .rblock bs =>
          .ok ⟨heapUpdate st.heap rid (fun o => setField o f.fieldId (.block bs)),
               st.fixups⟩
      | .reflectablePtr _, .rptr none => .ok st
      | .reflectablePtr _, .rptr (some t) =>
          if (st.heap.find? (fun p => p.1 == t)).isSome then
            .ok ⟨heapUpdate st.heap rid (fun o => setField o f.fieldId (.ptr (some t))),
                 st.fixups⟩
          else
            .ok ⟨st.heap, st.fixups ++ [⟨rid, f.fieldId, t⟩]⟩
      | _, _ => .error .malformedStream

/-- Decode the encoded fields of one record in order. -/
def buildFields (td : TypeDesc) (rid : Nat) :
    List RField → DecState → Except DecodeError DecState
  | [], st => .ok st
  | f :: rest, st =>
      match buildField td rid f st with
      | .error e => .error e
      | .ok st1 => buildFields td rid rest st1

/-- Decode one record: look up the type descriptor, register a blank instance
under the record's reference id before any field is decoded, resolve fix-ups
now satisfiable, then decode the fields. -/
def buildRecord (R : Registry) (r : Record) (st : DecState) :
    Except DecodeError DecState :=
  match findType R r.typeId with
  | none => .error (.unknownType r.typeId)
  | some td =>
      let st1 : DecState := ⟨st.heap ++ [(r.refId, blankObj td)], st.fixups⟩
      let st2 := resolveFixups st1 r.refId
      buildFields td r.refId r.fields st2

/-- Decode a record sequence in order. -/
def buildAll (R : Registry) : List Record → DecState → Except DecodeError DecState
  | [], st => .ok st
  | r :: rest, st =>
      match buildRecord R r st with
      | .error e => .error e
      | .ok st1 => buildAll R rest st1

/-- Decode a record sequence into an object graph. The root is the object of
the first record. A fix-up still pending once the whole stream is consumed is
a dangling reference and aborts the decode. -/
def build (R : Registry) (rs : List Record) : Except DecodeError Graph :=
  match rs with
  | [] => .error .malformedStream
  | r0 :: _ =>
      match buildAll R rs ⟨[], []⟩ with
      | .error e => .error e
      | .ok st =>
          match st.fixups with
          | [] => .ok ⟨st.heap, r0.refId⟩
          | fx :: _ => .error (.danglingReference fx.target)

/-- Encode a graph to a token stream (spec boundary `encode`). -/
def encode (R : Registry) (G : Graph) : Option (List Nat) :=
  (walk R G).map serialize

/-- Decode a token stream to a graph (spec boundary `decode`). -/
def decode (R : Registry) (toks : List Nat) : Except DecodeError Graph :=
  match parse toks with
  | none => .error .malformedStream
  | some rs => build R rs

/-! ## Well-formed graphs -/

/-- Strictly ascending list of naturals (the field ids of a type descriptor
are iterated in ascending `fieldId` order, which also makes them unique). -/
def strictSorted : List Nat → Bool
  | [] => true
  | [_] => true
  | a :: b :: rest => decide (a < b) && strictSorted (b :: rest)

/-- Does a value fit the declared kind of its field, with pointer targets
pointing into the heap? -/
def kindMatch (G : Graph) (k : FieldKind) (v : Val) : Bool :=
  match k, v with
  | .plain, .plain _ => true
  | .dataBlock, .block _ => true
  | .reflectablePtr _, .ptr none => true
  | .reflectablePtr _, .ptr (some t) => G.keys.contains t
  | _, _ => false

/-- Do the stored field values of an object line up, in order, with the field
descriptors of its type? -/
def fieldsAligned (G : Graph) : List FieldDesc → List (Nat × Val) → Bool
  | [], [] => true
  | fd :: fds, p :: ps =>
      p.1 == fd.fieldId && kindMatch G fd.kind p.2 && fieldsAligned G fds ps
  | _, _ => false

/-- Is an object well typed: its type registered, the type's field ids
strictly ascending, and its stored values aligned with the declaration? -/
def wfTyped (R : Registry) (G : Graph) (o : Obj) : Bool :=
  match findType R o.typeId with
  | none => false
  | some td =>
      strictSorted (td.fields.map FieldDesc.fieldId) &&
      fieldsAligned G td.fields o.fields

/-- Well-formed object graph: distinct heap addresses, a root present in the
heap, and every object well typed with in-heap pointer targets. -/
def WF (R : Registry) (G : Graph) : Prop :=
  G.keys.Nodup ∧ G.root ∈ G.keys ∧ ∀ p ∈ G.heap, wfTyped R G p.2 = true

/-! ## Reachability through the edge relation -/

/-- Targets of the object's `ReflectablePtr` fields selected by a predicate
on the weak flag, among the given field descriptors. -/
def succsBy (keep : Bool → Bool) (fds : List FieldDesc) (o : Obj) : List Nat :=
  fds.filterMap (fun fd =>
    match fd.kind with
    | .reflectablePtr w =>
        if keep w then
          match (o.fields.find? (fun p => p.1 == fd.fieldId)).map Prod.snd with
          | some (.ptr (some t)) => some t
          | _ => none
        else none
    | _ => none)

/-- Successor objects of `a` through edges selected by `keep`. -/
def succsOf (keep : Bool → Bool) (R : Registry) (G : Graph) (a : Nat) :
    List Nat :=
  match G.get a with
  | none => []
  | some o =>
      match findType R o.typeId with
      | none => []
      | some td => succsBy keep td.fields o

/-- Targets of non-weak `ReflectablePtr` edges out of `a`. -/
def strongSuccs (R : Registry) (G : Graph) (a : Nat) : List Nat :=
  succsOf (fun w => !w) R G a

/-- Targets of weak `ReflectablePtr` edges out of `a`. -/
def weakSuccs (R : Registry) (G : Graph) (a : Nat) : List Nat :=
  succsOf (fun w => w) R G a

/-- Targets of all `ReflectablePtr` edges out of `a`. -/
def anySuccs (R : Registry) (G : Graph) (a : Nat) : List Nat :=
  succsOf (fun _ => true) R G a

/-- One closure expansion step: add the unreached successors. -/
def stepClosure (succs : Nat → List Nat) (S : List Nat) : List Nat :=
  S ++ (S.flatMap succs).filter (fun b => !(S.contains b))

/-- Reachable set from the start objects, through the given successor map,
saturated over the size of the heap. -/
def closureFrom (succs : Nat → List Nat) (G : Graph) (start : List Nat) :
    List Nat :=
  (stepClosure succs)^[G.heap.length] start

/-- Objects reachable from the root through non-weak edges. -/
def strongClosure (R : Registry) (G : Graph) : List Nat :=
  closureFrom (strongSuccs R G) G [G.root]

/-- Every object of the heap is reachable from the root through non-weak
edges. -/
def StrongCover (R : Registry) (G : Graph) : Prop :=
  ∀ a ∈ G.keys, a ∈ strongClosure R G

/-- No cycle made entirely of non-weak edges: no object reaches itself
through one or more non-weak steps. -/
def StrongAcyclic (R : Registry) (G : Graph) : Prop :=
  ∀ a ∈ G.keys, a ∉ closureFrom (strongSuccs R G) G (strongSuccs R G a)

/-- The graph contains a cycle with a weak back-edge: some weak edge
`b → a` closes a cycle whose remaining edges lead from `a` back to `b`. -/
def HasWeakCycle (R : Registry) (G : Graph) : Prop :=
  ∃ b ∈ G.keys, ∃ a ∈ weakSuccs R G b,
    b ∈ closureFrom (anySuccs R G) G [a]

/-! ## Characterization of the walker's output -/

/-- Lookup in an association list of naturals. -/
def alookup (l : List (Nat × Nat)) (a : Nat) : Option Nat :=
  (l.find? (fun p => p.1 == a)).map Prod.snd

/-- Value stored by the object for a declared field, defaulting like the
walker does. -/
def Obj.fieldVal (o : Obj) (fd : FieldDesc) : Val :=
  ((o.fields.find? (fun p => p.1 == fd.fieldId)).map Prod.snd).getD
    (defaultVal fd.kind)

/-- Encoded value of a field under a finished reference-id assignment `φ`. -/
def renderVal (φ : List (Nat × Nat)) (k : FieldKind) (v : Val) : RVal :=
  match k, v with
  | .plain, .plain n => .rplain n
  | .dataBlock, .block bs => .rblock bs
  | .reflectablePtr _, .ptr none => .rptr none
  | .reflectablePtr _, .ptr (some t) => .rptr (some ((alookup φ t).getD 0))
  | k, _ => defaultRVal k

/-- Encoded fields of an object under a finished reference-id assignment. -/
def renderFields (φ : List (Nat × Nat)) (fds : List FieldDesc) (o : Obj) :
    List RField :=
  fds.map (fun fd => ⟨fd.fieldId, renderVal φ fd.kind (o.fieldVal fd)⟩)

/-- Record emitted for object `a` under a finished reference-id assignment. -/
def renderRecord (φ : List (Nat × Nat)) (td : TypeDesc) (o : Obj) (a : Nat) :
    Record :=
  ⟨(alookup φ a).getD 0, o.typeId, td.typeVersion, renderFields φ td.fields o⟩

/-! ## Characterization of the resolver's output -/

/-- Decoded value of an encoded field value: pointer payloads become pointers
holding the target reference id. -/
def valOfR : RVal → Val
  | .rplain v => .plain v
  | .rblock bs => .block bs
  | .rptr o => .ptr o

/-- The fully wired object a record decodes to, once every pointer target of
the record got constructed. -/
def objOfRecord (r : Record) : Obj :=
  ⟨r.typeId, r.fields.map (fun f => (f.fieldId, valOfR f.val))⟩

/-- Reference ids of a record sequence, in emission order. -/
def recordIds (rs : List Record) : List Nat := rs.map Record.refId

/-- Does an encoded value fit the declared kind of its field? -/
def rvalMatch (k : FieldKind) (rv : RVal) : Bool :=
  match k, rv with
  | .plain, .rplain _ => true
  | .dataBlock, .rblock _ => true
  | .reflectablePtr _, .rptr _ => true
  | _, _ => false

/-- Do the encoded fields of a record line up, in order, with the field
descriptors of its type? -/
def rfieldsAligned : List FieldDesc → List RField → Bool
  | [], [] => true
  | fd :: fds, f :: fs =>
      f.fieldId == fd.fieldId && rvalMatch fd.kind f.val && rfieldsAligned fds fs
  | _, _ => false

/-- Is a record well typed against the registry? -/
def goodRecord (R : Registry) (r : Record) : Bool :=
  match findType R r.typeId with
  | none => false
  | some td =>
      strictSorted (td.fields.map FieldDesc.fieldId) &&
      rfieldsAligned td.fields r.fields

/-- The pointer occurrence of one encoded field, as a fix-up triple, when the
type descriptor declares the field as `ReflectablePtr` and the encoded value
references a target. -/
def fieldOcc (td : TypeDesc) (rid : Nat) (f : RField) : Option Fixup :=
  match td.fields.find? (fun fd => fd.fieldId == f.fieldId) with
  | none => none
  | some fd =>
      match fd.kind, f.val with
      | .reflectablePtr _, .rptr (some t) => some ⟨rid, f.fieldId, t⟩
      | _, _ => none

/-- All pointer occurrences of one record. -/
def recordFixups (td : TypeDesc) (r : Record) : List Fixup :=
  r.fields.filterMap (fieldOcc td r.refId)

/-- The fix-up one encoded field actually contributes, given the reference
ids already constructed: its pointer occurrence when the target is not
constructed yet. -/
def fieldFixups (td : TypeDesc) (rid : Nat) (constructed : List Nat)
    (f : RField) : List Fixup :=
  match fieldOcc td rid f with
  | none => []
  | some fx => if constructed.contains fx.target then [] else [fx]

/-- All pointer-field reference occurrences of a record sequence, as fix-up
triples (holder reference id, field id, target reference id), restricted to
the fields the registry's type descriptors declare as `ReflectablePtr`. -/
def ptrFixupsOf (R : Registry) (rs : List Record) : List Fixup :=
  rs.flatMap (fun r =>
    match findType R r.typeId with
    | none => []
    | some td => recordFixups td r)

/-- Reference ids already constructed by the decoder. -/
def DecState.constructedIds (st : DecState) : List Nat := st.heap.map Prod.fst

/-- Target reference ids referenced by the pointer fields of a record
sequence. -/
def ptrTargets (R : Registry) (rs : List Record) : List Nat :=
  (ptrFixupsOf R rs).map Fixup.target

/-- A record sequence is good when its reference ids are distinct, every
record is well typed, and every pointer target reference id appears in the
sequence. -/
def GoodRecords (R : Registry) (rs : List Record) : Prop :=
  (recordIds rs).Nodup ∧ (∀ r ∈ rs, goodRecord R r = true) ∧
  ∀ fx ∈ ptrFixupsOf R rs, fx.target ∈ recordIds rs

/-! ## Graph isomorphism -/

/-- Rename the pointer target of a value through the object-id translation
`φ`; non-pointer values are kept as they are. -/
def Val.rename (φ : List (Nat × Nat)) : Val → Option Val
  | .ptr (some t) => (alookup φ t).map (fun i => .ptr (some i))
  | v => some v

/-- Two objects match under the object-id translation `φ`: same type id, and
fields pairwise equal up to renaming of pointer targets. -/
def ObjMatch (φ : List (Nat × Nat)) (o o' : Obj) : Prop :=
  o'.typeId = o.typeId ∧
  List.Forall₂ (fun (p q : Nat × Val) => q.1 = p.1 ∧ Val.rename φ p.2 = some q.2)
    o.fields o'.fields

/-- Graph isomorphism witnessed by the object-id translation `φ`: roots
correspond, every source object has a matching image, `φ` is injective (so
distinct objects stay distinct and shared references stay shared), and every
image object comes from a source object. -/
structure GraphIso (φ : List (Nat × Nat)) (G G' : Graph) : Prop where
  root : alookup φ G.root = some G'.root
  total : ∀ a o, G.get a = some o →
    ∃ b o', alookup φ a = some b ∧ G'.get b = some o' ∧ ObjMatch φ o o'
  inj : ∀ a1 a2 b, alookup φ a1 = some b → alookup φ a2 = some b → a1 = a2
  surj : ∀ b o', G'.get b = some o' →
    ∃ a, alookup φ a = some b ∧ (G.get a).isSome

/-! ## Auxiliary notions for the round-trip proof -/

/-- One reference-id assignment extends another when it preserves every
existing lookup. -/
def Extends (φ2 φ1 : List (Nat × Nat)) : Prop :=
  ∀ a i, alookup φ1 a = some i → alookup φ2 a = some i

/-- Invariants of the walker state maintained throughout the traversal. -/
structure WalkInv (G : Graph) (st : WalkSt) : Prop where
  idKeysNodup : (st.idOf.map Prod.fst).Nodup
  idValsBound : ∀ p ∈ st.idOf, p.2 < st.nextId
  idValsNodup : (st.idOf.map Prod.snd).Nodup
  seenNodup : st.seen.Nodup
  seenAssigned : ∀ a ∈ st.seen, (alookup st.idOf a).isSome
  seenInHeap : ∀ a ∈ st.seen, a ∈ G.keys
  idKeysInHeap : ∀ p ∈ st.idOf, p.1 ∈ G.keys

/-- Decoded value of an encoded value when only the reference ids in `S` have
been constructed so far: a pointer to a not-yet-constructed target is still
null (it has a pending fix-up). -/
def partialVal (S : List Nat) : RVal → Val
  | .rplain v => .plain v
  | .rblock bs => .block bs
  | .rptr none => .ptr none
  | .rptr (some t) => .ptr (if S.contains t then some t else none)

/-- Decoded object of a record when only the ids in `S` are constructed. -/
def partialObj (S : List Nat) (r : Record) : Obj :=
  ⟨r.typeId, r.fields.map (fun f => (f.fieldId, partialVal S f.val))⟩

/-- Decoded heap of a record sequence when only the ids in `S` are
constructed. -/
def partialHeap (S : List Nat) (rs : List Record) : List (Nat × Obj) :=
  rs.map (fun r => (r.refId, partialObj S r))

/-! ## Concrete registries and graphs for the round-trip theorems -/

/-- Registry with a type holding two non-weak `ReflectablePtr` fields
(type 300) and a plain payload type (type 200). -/
def regShare : Registry :=
  [⟨300, 1, [⟨1, .reflectablePtr false⟩, ⟨2, .reflectablePtr false⟩]⟩,
   ⟨200, 1, [⟨1, .plain⟩]⟩]

/-- Graph whose root holds two strong pointers to the same object,
exercising shared-reference preservation. -/
def graphShare : Graph :=
  ⟨[(1, ⟨300, [(1, .ptr (some 5)), (2, .ptr (some 5))]⟩),
    (5, ⟨200, [(1, .plain 42)]⟩)], 1⟩

/-- Registry with a type holding a plain field, a non-weak `ReflectablePtr`
field and a weak `ReflectablePtr` field (type 100), and a plain payload
type (type 200). -/
def regWeak : Registry :=
  [⟨100, 7, [⟨1, .plain⟩, ⟨2, .reflectablePtr false⟩,
    ⟨3, .reflectablePtr true⟩]⟩,
   ⟨200, 1, [⟨1, .plain⟩]⟩]

/-- Acyclic well-formed graph in which object 30 is reachable from the root
only through a weak edge. -/
def graphWeakDangle : Graph :=
  ⟨[(10, ⟨100, [(1, .plain 5), (2, .ptr none), (3, .ptr (some 30))]⟩),
    (30, ⟨200, [(1, .plain 9)]⟩)], 10⟩

/-- Graph with a weak-closed cycle: 10 points to 20 through a non-weak edge,
20 points back to 10 through a weak edge. -/
def graphWeakCycle : Graph :=
  ⟨[(10, ⟨100, [(1, .plain 5), (2, .ptr (some 20)), (3, .ptr none)]⟩),
    (20, ⟨100, [(1, .plain 6), (2, .ptr none), (3, .ptr (some 10))]⟩)], 10⟩

/-- The weak-closed cycle of `graphWeakCycle` plus an object 30 reachable
only through a weak edge out of the root. -/
def graphWeakCycleDangle : Graph :=
  ⟨[(10, ⟨100, [(1, .plain 5), (2, .ptr (some 20)), (3, .ptr (some 30))]⟩),
    (20, ⟨100, [(1, .plain 6), (2, .ptr none), (3, .ptr (some 10))]⟩),
    (30, ⟨200, [(1, .plain 9)]⟩)], 10⟩

end BsfSerial

namespace BsfRTTI

/-- Field types we can serialize, from `SerializableFieldType` in
`src/BansheeUtility/Include/BsRTTIField.h`. -/
inductive SerializableFieldType
  | SerializableFT_Plain
  | SerializableFT_DataBlock
  | SerializableFT_Reflectable
  | SerializableFT_ReflectablePtr
deriving DecidableEq, Repr

/-- Flag bit `RTTI_Flag_WeakRef` from `src/BansheeUtility/Include/BsRTTIField.h`. -/
def RTTI_Flag_WeakRef : Nat := 0x01

/-- Meta-data of a single class field, from the `RTTIField` structure in
`src/BansheeUtility/Include/BsRTTIField.h` (the type-erased `Any` accessors
are modelled separately below, since their concrete implementations are not
under `src/`). -/
structure RTTIFieldData where
  mName : String
  mUniqueId : Nat
  mIsVectorType : Bool
  mType : SerializableFieldType
  mFlags : Nat
deriving DecidableEq, Repr

/-- Mirrors `RTTIField::isPlainType`. -/
def RTTIFieldData.isPlainType (f : RTTIFieldData) : Bool :=
  f.mType == .SerializableFT_Plain

/-- Mirrors `RTTIField::isDataBlockType`. -/
def RTTIFieldData.isDataBlockType (f : RTTIFieldData) : Bool :=
  f.mType == .SerializableFT_DataBlock

/-- Mirrors `RTTIField::isReflectableType`. -/
def RTTIFieldData.isReflectableType (f : RTTIFieldData) : Bool :=
  f.mType == .SerializableFT_Reflectable

/-- Mirrors `RTTIField::isReflectablePtrType`. -/
def RTTIFieldData.isReflectablePtrType (f : RTTIFieldData) : Bool :=
  f.mType == .SerializableFT_ReflectablePtr

/-- Mirrors `RTTIField::getFlags`. -/
def RTTIFieldData.getFlags (f : RTTIFieldData) : Nat := f.mFlags

/-- Errors raised by field accessor misuse (spec section 7 taxonomy). -/
inductive AccessError
  | notAnArray
deriving DecidableEq, Repr

/-- Value of one array element held by a field, for the array accessor model:
a value-kind element (flat data) or a pointer-kind element. -/
inductive ElemVal
  | value (bytes : List Nat)
  | pointer (target : Option Nat)
deriving DecidableEq, Repr

/-- Default-constructed array slot for each field type: value kinds get a
default-constructed value, pointer kinds are left null. -/
def defaultElem : SerializableFieldType → ElemVal
  | .SerializableFT_ReflectablePtr => .pointer none
  | _ => .value []

/-- Modelled from the spec: the concrete implementations of
`RTTIField::getArraySize` (declared pure virtual in
`src/BansheeUtility/Include/BsRTTIField.h`, "Throws exception if field is not
an array") are not under `src/`; per spec section 4.1, `arraySize` fails with
`NotAnArrayError` when `isArray` is false and otherwise returns the element
count. The owner's array content is passed explicitly. -/
def getArraySizeM (f : RTTIFieldData) (arr : List ElemVal) :
    Except AccessError Nat :=
  if f.mIsVectorType then .ok arr.length else .error .notAnArray

/-- Modelled from the spec: the concrete implementations of
`RTTIField::setArraySize` are not under `src/`; per spec section 4.1,
`resizeArray` fails with `NotAnArrayError` when `isArray` is false; resizing
keeps the surviving prefix in place and fills new slots with the
default-constructed element of the field's type. -/
def setArraySizeM (f : RTTIFieldData) (arr : List ElemVal) (n : Nat) :
    Except AccessError (List ElemVal) :=
  if f.mIsVectorType then
    .ok (arr.take n ++ List.replicate (n - arr.length) (defaultElem f.mType))
  else .error .notAnArray

/-- An owner instance as the type-erased accessors see it: the dynamic type
of the object behind the `void *`, and its raw contents. -/
structure OwnerInstance where
  typeId : Nat
  data : List Nat
deriving DecidableEq, Repr

/-- Result of a `getValue` call in the spec's vocabulary. -/
inductive GetValueResult
  | ok (v : List Nat)
  | typeMismatchError
deriving DecidableEq, Repr

/-- Model of field value access per `src/BansheeUtility/Include/BsRTTIField.h`
lines 70-77: the accessors accept the owning instance as an untyped pointer
("Most of the methods for retrieving and setting data accept `void *` ...
It is up to the caller to ensure that pointer is of proper type"), so the
getter reads the raw contents regardless of the owner's dynamic type; no
owner-type check is performed and no `TypeMismatchError` path exists. -/
def getValueM (getter : List Nat → List Nat) (owner : OwnerInstance) :
    GetValueResult :=
  .ok (getter owner.data)

/-- Modelled from the spec: a concrete field descriptor bound to its owning
class; the owning type is implicit in the C++ template parameter `ObjectType`
of the concrete field classes (which are not under `src/`), and the getter is
the type-erased closure stored in `RTTIField::valueGetter`. -/
structure TypedField where
  fld : RTTIFieldData
  owningTypeId : Nat
  getter : List Nat → List Nat

/-- An owner instance is compatible with a field descriptor when its dynamic
type is the descriptor's owning type. -/
def compatible (tf : TypedField) (owner : OwnerInstance) : Prop :=
  owner.typeId = tf.owningTypeId

/-- The descriptor's `getValue`, calling the stored getter through the
untyped owner pointer (see `getValueM`). -/
def TypedField.getValue (tf : TypedField) (owner : OwnerInstance) :
    GetValueResult :=
  getValueM tf.getter owner

/-- Modelled from the spec and the `RTTIField::hasDynamicSize` note in
`src/BansheeUtility/Include/BsRTTIField.h` (its implementations are not under
`src/`): a universe of representative field types. "Types like integers,
floats, bools, POD structs dont have dynamic size. Types like strings,
vectors, maps do"; a static size over 255 bytes also forces dynamic size
(`bigPod` is a 300-byte POD). -/
inductive PlainFieldType
  | int32
  | float32
  | boolean
  | stringType
  | vectorOfInt
  | bigPod
deriving DecidableEq, Repr

/-- Reported static type size for each representative field type, per the
`getTypeSize` contract (meaningful for statically sized types). -/
def getTypeSize : PlainFieldType → Nat
  | .int32 => 4
  | .float32 => 4
  | .boolean => 1
  | .stringType => 4
  | .vectorOfInt => 4
  | .bigPod => 300

/-- Whether each representative field type reports dynamic size, per the
`hasDynamicSize` note: varying-size types and types larger than 255 bytes do. -/
def hasDynamicSize : PlainFieldType → Bool
  | .int32 => false
  | .float32 => false
  | .boolean => false
  | .stringType => true
  | .vectorOfInt => true
  | .bigPod => true

/-- Serialized size of an instance of each representative field type; the
instance contents are abstracted as a list (its length drives varying sizes). -/
def serializedSize : PlainFieldType → List Nat → Nat
  | .int32, _ => 4
  | .float32, _ => 4
  | .boolean, _ => 1
  | .stringType, s => 4 + s.length
  | .vectorOfInt, xs => 4 + 4 * xs.length
  | .bigPod, _ => 300

end BsfRTTI

namespace BsfGUI

/-- Layout options of a GUI element; `GUIElement::setLayoutOptions` in
`src/BansheeEngine/Source/BsGUIElement.cpp` reads these four bounds. -/
structure GUI_LAYOUT_OPTIONS where
  minWidth : Nat
  maxWidth : Nat
  minHeight : Nat
  maxHeight : Nat
deriving DecidableEq, Repr

/-- Exception raised by `CM_EXCEPT(InvalidParametersException, ...)`. -/
inductive GUIException
  | invalidParameters (msg : String)
deriving DecidableEq, Repr

/-- State of a GUI element relevant to `setLayoutOptions`: the stored layout
options. -/
structure GUIElementState where
  mLayoutOptions : GUI_LAYOUT_OPTIONS
deriving DecidableEq, Repr

/-- Model of `GUIElement::setLayoutOptions`
(`src/BansheeEngine/Source/BsGUIElement.cpp` lines 29-44): validate the
bounds, throwing `InvalidParametersException` before any mutation when
`maxWidth < minWidth` or `maxHeight < minHeight`, and only then assign
`mLayoutOptions`. The result pairs the element state after the call with the
exception, if one was thrown. -/
def setLayoutOptions (e : GUIElementState) (layoutOptions : GUI_LAYOUT_OPTIONS) :
    GUIElementState × Option GUIException :=
  if layoutOptions.maxWidth < layoutOptions.minWidth then
    (e, some (.invalidParameters
      ("Maximum width is less than minimum width! Max width: " ++
       toString layoutOptions.maxWidth ++ ". Min width: " ++
       toString layoutOptions.minWidth)))
  else if layoutOptions.maxHeight < layoutOptions.minHeight then
    (e, some (.invalidParameters
      ("Maximum height is less than minimum height! Max height: " ++
       toString layoutOptions.maxHeight ++ ". Min height: " ++
       toString layoutOptions.minHeight)))
  else
    ({ e with mLayoutOptions := layoutOptions }, none)

end BsfGUI

/-! # Theorems -/

open BsfSerial BsfRTTI BsfGUI

/-- C2: encoding is deterministic: two encode passes over the same unchanged
root produce identical output. In this embedding every piece of encoder state
(the reference-id assignment, the emission queue, the seen set) is threaded
explicitly through `walkLoop`, so reference-id assignment is a pure function
of the traversal, which is fully determined by the field order of the type
descriptors and by the graph itself; determinism of `encode` is then simply
functionality. -/
theorem c2_encode_deterministic (R : Registry) (G1 G2 : Graph) (h : G1 = G2) :
    encode R G1 = encode R G2 := by rw [h]

/-- C2 witness: two encode passes over one concrete root agree. -/
theorem c2_encode_deterministic_witness :
    encode [⟨100, 1, [⟨1, .plain⟩]⟩] ⟨[(0, ⟨100, [(1, .plain 5)]⟩)], 0⟩ =
    encode [⟨100, 1, [⟨1, .plain⟩]⟩] ⟨[(0, ⟨100, [(1, .plain 5)]⟩)], 0⟩ :=
  c2_encode_deterministic [⟨100, 1, [⟨1, .plain⟩]⟩]
    ⟨[(0, ⟨100, [(1, .plain 5)]⟩)], 0⟩ ⟨[(0, ⟨100, [(1, .plain 5)]⟩)], 0⟩ rfl

/-- C6: for every field descriptor whose `isArray` flag (`mIsVectorType`) is
false, both the array-size query and the array-resize operation fail with
`NotAnArrayError` instead of returning a size or mutating the array. -/
theorem c6_scalar_field_array_ops_fail (f : RTTIFieldData)
    (arr : List ElemVal) (n : Nat) (h : f.mIsVectorType = false) :
    getArraySizeM f arr = .error .notAnArray ∧
    setArraySizeM f arr n = .error .notAnArray := by
  simp [getArraySizeM, setArraySizeM, h]

/-- C6 witness: a concrete scalar field rejects both array operations. -/
theorem c6_scalar_field_array_ops_fail_witness :
    getArraySizeM ⟨"mValue", 1, false, .SerializableFT_Plain, 0⟩ [.value [1]] =
      .error .notAnArray ∧
    setArraySizeM ⟨"mValue", 1, false, .SerializableFT_Plain, 0⟩ [.value [1]] 3 =
      .error .notAnArray :=
  c6_scalar_field_array_ops_fail ⟨"mValue", 1, false, .SerializableFT_Plain, 0⟩
    [.value [1]] 3 rfl

/-- C7 counterexample: the claim says `getValue` fails with
`TypeMismatchError` when the owner is not an instance compatible with the
descriptor's owning type. Per the contract note of
`src/BansheeUtility/Include/BsRTTIField.h` (lines 70-72), the accessors take
the owner as `void *` and "It is up to the caller to ensure that pointer is
of proper type": no owner-type check is performed. Here a field owned by type
1 is read through an owner of type 2, and the call returns a value read from
the raw contents instead of a `TypeMismatchError`. -/
theorem c7_counterexample :
    ¬ compatible ⟨⟨"mValue", 1, false, .SerializableFT_Plain, 0⟩, 1,
        fun d => d.take 1⟩ ⟨2, [7, 8]⟩ ∧
    TypedField.getValue ⟨⟨"mValue", 1, false, .SerializableFT_Plain, 0⟩, 1,
        fun d => d.take 1⟩ ⟨2, [7, 8]⟩ = .ok [7] ∧
    TypedField.getValue ⟨⟨"mValue", 1, false, .SerializableFT_Plain, 0⟩, 1,
        fun d => d.take 1⟩ ⟨2, [7, 8]⟩ ≠ .typeMismatchError := by
  exact ⟨by simp [compatible], rfl, by decide⟩

/-- C7 (amended): `getValue(owner)` returns the value the stored getter reads
from the owner — the field's value whenever the owner is compatible — and it
performs no owner-type check: it never fails with a `TypeMismatchError`, even
for an incompatible owner; ensuring compatibility is the caller's
responsibility (contract note of `src/BansheeUtility/Include/BsRTTIField.h`). -/
theorem c7_get_value_unchecked (tf : TypedField) (owner : OwnerInstance) :
    tf.getValue owner = .ok (tf.getter owner.data) ∧
    tf.getValue owner ≠ .typeMismatchError := by
  exact ⟨rfl, by simp [TypedField.getValue, getValueM]⟩

/-- C8: resizing an array field to a larger count keeps every previously
existing element unchanged and default-constructs the new slots (null for
pointer kinds, per `defaultElem`); resizing to a smaller count keeps every
surviving element unchanged. -/
theorem c8_resize_preserves_elements (f : RTTIFieldData)
    (arr : List ElemVal) (n : Nat) (h : f.mIsVectorType = true) :
    ∃ arr', setArraySizeM f arr n = .ok arr' ∧
      arr'.length = n ∧
      (∀ i, i < n → i < arr.length → arr'[i]? = arr[i]?) ∧
      (∀ i, arr.length ≤ i → i < n → arr'[i]? = some (defaultElem f.mType)) := by
  refine ⟨arr.take n ++ List.replicate (n - arr.length) (defaultElem f.mType),
    by simp [setArraySizeM, h], ?_, ?_, ?_⟩
  · simp only [List.length_append, List.length_take, List.length_replicate]
    omega
  · intro i hin hilen
    rw [List.getElem?_append, if_pos (by simp [List.length_take]; omega)]
    rw [List.getElem?_take, if_pos hin]
  · intro i hlen hin
    rw [List.getElem?_append_right (by simp [List.length_take]; omega)]
    rw [List.getElem?_replicate,
      if_pos (by simp only [List.length_take]; omega)]

/-- C8 witness: growing a concrete array field from size 2 to 5 preserves
elements 0-1; the theorem also yields the shrinking case. -/
theorem c8_resize_preserves_elements_witness :
    ∃ arr', setArraySizeM ⟨"mArr", 1, true, .SerializableFT_ReflectablePtr, 0⟩
        [.pointer (some 4), .pointer (some 9)] 5 = .ok arr' ∧
      arr'.length = 5 ∧
      (∀ i, i < 5 → i < 2 → arr'[i]? =
        ([ElemVal.pointer (some 4), .pointer (some 9)])[i]?) ∧
      (∀ i, 2 ≤ i → i < 5 → arr'[i]? = some (.pointer none)) :=
  c8_resize_preserves_elements ⟨"mArr", 1, true, .SerializableFT_ReflectablePtr, 0⟩
    [.pointer (some 4), .pointer (some 9)] 5 rfl

/-- C9: `GUIElement::setLayoutOptions` throws `InvalidParametersException`
when `maxWidth < minWidth` or `maxHeight < minHeight`, leaving the stored
layout options at their previous value; otherwise the stored layout options
become exactly the supplied value
(`src/BansheeEngine/Source/BsGUIElement.cpp` lines 29-44). -/
theorem c9_set_layout_options_validates (e : GUIElementState)
    (o : GUI_LAYOUT_OPTIONS) :
    (o.maxWidth < o.minWidth ∨ o.maxHeight < o.minHeight →
      (setLayoutOptions e o).1 = e ∧
      ∃ m, (setLayoutOptions e o).2 = some (.invalidParameters m)) ∧
    (¬(o.maxWidth < o.minWidth ∨ o.maxHeight < o.minHeight) →
      setLayoutOptions e o = ({ e with mLayoutOptions := o }, none)) := by
  constructor
  · intro hbad
    by_cases hw : o.maxWidth < o.minWidth
    · refine ⟨by simp [setLayoutOptions, hw],
        "Maximum width is less than minimum width! Max width: " ++
          toString o.maxWidth ++ ". Min width: " ++ toString o.minWidth, ?_⟩
      simp [setLayoutOptions, hw]
    · have hh : o.maxHeight < o.minHeight := by tauto
      refine ⟨by simp [setLayoutOptions, hw, hh],
        "Maximum height is less than minimum height! Max height: " ++
          toString o.maxHeight ++ ". Min height: " ++ toString o.minHeight, ?_⟩
      simp [setLayoutOptions, hw, hh]
  · intro hgood
    push_neg at hgood
    simp [setLayoutOptions, Nat.not_lt.mpr hgood.1, Nat.not_lt.mpr hgood.2]

/-- C9 witness: a concrete invalid request (max width 3 below min width 10)
is rejected with the element state unchanged, and a concrete valid request is
stored exactly. -/
theorem c9_set_layout_options_validates_witness :
    ((setLayoutOptions ⟨⟨1, 2, 3, 4⟩⟩ ⟨10, 3, 0, 5⟩).1 = ⟨⟨1, 2, 3, 4⟩⟩ ∧
      ∃ m, (setLayoutOptions ⟨⟨1, 2, 3, 4⟩⟩ ⟨10, 3, 0, 5⟩).2 =
        some (.invalidParameters m)) ∧
    setLayoutOptions ⟨⟨1, 2, 3, 4⟩⟩ ⟨1, 2, 3, 4⟩ = (⟨⟨1, 2, 3, 4⟩⟩, none) :=
  ⟨(c9_set_layout_options_validates ⟨⟨1, 2, 3, 4⟩⟩ ⟨10, 3, 0, 5⟩).1
      (Or.inl (by decide)),
   (c9_set_layout_options_validates ⟨⟨1, 2, 3, 4⟩⟩ ⟨1, 2, 3, 4⟩).2
      (by decide)⟩

/-- C10: a field type reporting static size (`hasDynamicSize = false`) has
the same serialized size for every instance, equal to `getTypeSize`, and
`getTypeSize` is at most 255; conversely a type whose size varies between
instances, or exceeds 255 for some instance, reports dynamic size (note of
`RTTIField::hasDynamicSize` in `src/BansheeUtility/Include/BsRTTIField.h`). -/
theorem c10_static_size_is_fixed_and_small (t : PlainFieldType) :
    (hasDynamicSize t = false →
      (∀ d1 d2, serializedSize t d1 = serializedSize t d2) ∧
      (∀ d, serializedSize t d = getTypeSize t) ∧
      getTypeSize t ≤ 255) ∧
    ((∃ d1 d2, serializedSize t d1 ≠ serializedSize t d2) ∨
      (∃ d, 255 < serializedSize t d) →
      hasDynamicSize t = true) := by
  cases t <;> simp [hasDynamicSize, serializedSize, getTypeSize]

/-- C10 witness: the 300-byte statically sized POD reports dynamic size, and
a 4-byte integer type reports a fixed size within the bound. -/
theorem c10_static_size_is_fixed_and_small_witness :
    hasDynamicSize .bigPod = true ∧
    ((∀ d1 d2, serializedSize .int32 d1 = serializedSize .int32 d2) ∧
      (∀ d, serializedSize .int32 d = getTypeSize .int32) ∧
      getTypeSize .int32 ≤ 255) :=
  ⟨(c10_static_size_is_fixed_and_small .bigPod).2 (Or.inr ⟨[], by decide⟩),
   (c10_static_size_is_fixed_and_small .int32).1 rfl⟩

/-- C3: a field whose encoded field id is not declared by the currently
loaded type descriptor is skipped: the field-level decode step leaves the
decoder state unchanged (first conjunct), the parser consumes the field's
value using exactly its self-delimited payload length (second conjunct), and
a stream encoded with fields 1, 2, 3 decodes successfully under a descriptor
knowing only fields 1 and 2, with field 3 silently skipped and the other
field values unaffected (third conjunct). -/
theorem c3_unknown_field_id_skipped :
    (∀ (td : TypeDesc) (rid : Nat) (f : RField) (st : DecState),
      td.fields.find? (fun fd => fd.fieldId == f.fieldId) = none →
      buildField td rid f st = .ok st) ∧
    (∀ (tag len : Nat) (toks : List Nat) (out : RVal × List Nat),
      parseVal tag len toks = some out → out.2 = toks.drop len) ∧
    (∀ v1 v2 v3 : Nat,
      (encode [⟨100, 1, [⟨1, .plain⟩, ⟨2, .plain⟩, ⟨3, .plain⟩]⟩]
          ⟨[(0, ⟨100, [(1, .plain v1), (2, .plain v2), (3, .plain v3)]⟩)], 0⟩).isSome
        = true ∧
      decode [⟨100, 1, [⟨1, .plain⟩, ⟨2, .plain⟩]⟩]
          ((encode [⟨100, 1, [⟨1, .plain⟩, ⟨2, .plain⟩, ⟨3, .plain⟩]⟩]
            ⟨[(0, ⟨100, [(1, .plain v1), (2, .plain v2), (3, .plain v3)]⟩)], 0⟩).getD [])
        = .ok ⟨[(0, ⟨100, [(1, .plain v1), (2, .plain v2)]⟩)], 0⟩) := by
  refine ⟨?_, ?_, fun v1 v2 v3 => ⟨rfl, rfl⟩⟩
  · intro td rid f st h
    simp [buildField, h]
  · intro tag len toks out h
    unfold parseVal at h
    split at h
    · rcases Option.map_eq_some'.mp h with ⟨rv, _, hout⟩
      rw [← hout]
    · exact absurd h (by simp)

/-- C3 witness: a concrete unknown field id is skipped with the state
unchanged, and the concrete 3-field stream decodes under the 2-field
descriptor. -/
theorem c3_unknown_field_id_skipped_witness :
    buildField ⟨100, 1, [⟨1, .plain⟩]⟩ 0 ⟨3, .rplain 9⟩ ⟨[], []⟩ = .ok ⟨[], []⟩ ∧
    decode [⟨100, 1, [⟨1, .plain⟩, ⟨2, .plain⟩]⟩]
        ((encode [⟨100, 1, [⟨1, .plain⟩, ⟨2, .plain⟩, ⟨3, .plain⟩]⟩]
          ⟨[(0, ⟨100, [(1, .plain 11), (2, .plain 22), (3, .plain 33)]⟩)], 0⟩).getD [])
      = .ok ⟨[(0, ⟨100, [(1, .plain 11), (2, .plain 22)]⟩)], 0⟩ :=
  ⟨c3_unknown_field_id_skipped.1 ⟨100, 1, [⟨1, .plain⟩]⟩ 0 ⟨3, .rplain 9⟩ ⟨[], []⟩ rfl,
   (c3_unknown_field_id_skipped.2.2 11 22 33).2⟩

/-! ## Decoder fix-up queue characterization -/

theorem bsf_contains_iff_mem (l : List Nat) (a : Nat) :
    l.contains a = true ↔ a ∈ l := by
  simp [List.contains, List.elem_iff]

theorem bsf_find_pair_isSome (h : List (Nat × Obj)) (t : Nat) :
    (h.find? (fun p => p.1 == t)).isSome = (h.map Prod.fst).contains t := by
  induction h with
  | nil => rfl
  | cons p ps ih =>
      by_cases hp : p.1 = t
      · simp [List.find?_cons, hp]
      · have hpb : (p.1 == t) = false := by simp [hp]
        have hpb2 : (t == p.1) = false := by simp [Ne.symm hp]
        simp [List.find?_cons, hpb, hpb2, ih]

theorem resolveFixups_constructedIds (st : DecState) (rid : Nat) :
    (resolveFixups st rid).constructedIds = st.constructedIds := by
  simp [resolveFixups, DecState.constructedIds]

theorem resolveFixups_fixups (st : DecState) (rid : Nat) :
    (resolveFixups st rid).fixups =
      st.fixups.filter (fun fx => fx.target != rid) := rfl

theorem heapUpdate_map_fst (h : List (Nat × Obj)) (rid : Nat) (f : Obj → Obj) :
    (heapUpdate h rid f).map Prod.fst = h.map Prod.fst := by
  rw [heapUpdate, List.map_map]
  apply List.map_congr_left
  intro p _
  simp only [Function.comp_apply]
  split <;> rfl

theorem buildField_ok (td : TypeDesc) (rid : Nat) (f : RField)
    (st st' : DecState) (h : buildField td rid f st = .ok st') :
    st'.constructedIds = st.constructedIds ∧
    st'.fixups = st.fixups ++ fieldFixups td rid st.constructedIds f := by
  obtain ⟨ffid, fv⟩ := f
  cases hfind : td.fields.find? (fun fd => fd.fieldId == ffid) with
  | none =>
      simp only [buildField, hfind, Except.ok.injEq] at h
      subst h
      simp [fieldFixups, fieldOcc, hfind]
  | some fd =>
      obtain ⟨fdid, k⟩ := fd
      cases k with
      | plain =>
          cases fv with
          | rplain v =>
              simp only [buildField, hfind, Except.ok.injEq] at h
              subst h
              simp [fieldFixups, fieldOcc, hfind, DecState.constructedIds,
                heapUpdate_map_fst]
          | rblock bs => simp [buildField, hfind] at h
          | rptr o => simp [buildField, hfind] at h
      | dataBlock =>
          cases fv with
          | rplain v => simp [buildField, hfind] at h
          | rblock bs =>
              simp only [buildField, hfind, Except.ok.injEq] at h
              subst h
              simp [fieldFixups, fieldOcc, hfind, DecState.constructedIds,
                heapUpdate_map_fst]
          | rptr o => simp [buildField, hfind] at h
      | reflectablePtr w =>
          cases fv with
          | rplain v => simp [buildField, hfind] at h
          | rblock bs => simp [buildField, hfind] at h
          | rptr o =>
              cases o with
              | none =>
                  simp only [buildField, hfind, Except.ok.injEq] at h
                  subst h
                  simp [fieldFixups, fieldOcc, hfind]
              | some t =>
                  simp only [buildField, hfind] at h
                  split at h
                  · rename_i hc
                    simp only [Except.ok.injEq] at h
                    subst h
                    have hct : st.constructedIds.contains t = true := by
                      rw [DecState.constructedIds, ← bsf_find_pair_isSome]
                      exact hc
                    refine ⟨by simp [DecState.constructedIds, heapUpdate_map_fst], ?_⟩
                    simp only [fieldFixups, fieldOcc, hfind, hct]
                    simp
                  · rename_i hc
                    simp only [Except.ok.injEq] at h
                    subst h
                    have hct : st.constructedIds.contains t = false := by
                      rw [DecState.constructedIds, ← bsf_find_pair_isSome]
                      cases hb : (List.find? (fun p => p.1 == t) st.heap).isSome with
                      | false => rfl
                      | true => exact absurd hb hc
                    refine ⟨rfl, ?_⟩
                    simp only [fieldFixups, fieldOcc, hfind, hct]
                    simp

theorem buildFields_ok (td : TypeDesc) (rid : Nat) :
    ∀ (fs : List RField) (st st' : DecState),
    buildFields td rid fs st = .ok st' →
    st'.constructedIds = st.constructedIds ∧
    st'.fixups = st.fixups ++ fs.flatMap (fieldFixups td rid st.constructedIds)
  | [], st, st', h => by
      simp only [buildFields, Except.ok.injEq] at h
      subst h
      simp
  | f :: fs, st, st', h => by
      simp only [buildFields] at h
      cases hb : buildField td rid f st with
      | error e => rw [hb] at h; exact Except.noConfusion h
      | ok st1 =>
          rw [hb] at h
          obtain ⟨hids1, hfx1⟩ := buildField_ok td rid f st st1 hb
          obtain ⟨hids2, hfx2⟩ := buildFields_ok td rid fs st1 st' h
          refine ⟨by rw [hids2, hids1], ?_⟩
          rw [hfx2, hfx1, hids1, List.flatMap_cons, List.append_assoc]

theorem flatMap_fieldFixups (td : TypeDesc) (rid : Nat) (K : List Nat) :
    ∀ fs : List RField,
    fs.flatMap (fieldFixups td rid K) =
      (fs.filterMap (fieldOcc td rid)).filter (fun fx => !(K.contains fx.target))
  | [] => rfl
  | f :: fs => by
      rw [List.flatMap_cons, List.filterMap_cons, flatMap_fieldFixups td rid K fs]
      cases hocc : fieldOcc td rid f with
      | none => simp [fieldFixups, hocc]
      | some fx =>
          simp only [fieldFixups, hocc, List.filter_cons]
          cases hct : K.contains fx.target <;> simp [hct]

theorem buildRecord_ok (R : Registry) (r : Record) (st st' : DecState)
    (h : buildRecord R r st = .ok st') :
    ∃ td, findType R r.typeId = some td ∧
      st'.constructedIds = st.constructedIds ++ [r.refId] ∧
      st'.fixups = st.fixups.filter (fun fx => fx.target != r.refId) ++
        (recordFixups td r).filter
          (fun fx => !((st.constructedIds ++ [r.refId]).contains fx.target)) := by
  unfold buildRecord at h
  cases hft : findType R r.typeId with
  | none => rw [hft] at h; exact Except.noConfusion h
  | some td =>
      rw [hft] at h
      refine ⟨td, rfl, ?_⟩
      obtain ⟨hids, hfx⟩ := buildFields_ok td r.refId r.fields _ st' h
      have hids2 : (resolveFixups ⟨st.heap ++ [(r.refId, blankObj td)], st.fixups⟩
          r.refId).constructedIds = st.constructedIds ++ [r.refId] := by
        rw [resolveFixups_constructedIds]
        simp [DecState.constructedIds]
      constructor
      · rw [hids, hids2]
      · rw [hfx, hids2, resolveFixups_fixups]
        rw [flatMap_fieldFixups]
        rfl

theorem ptrFixupsOf_append (R : Registry) (xs ys : List Record) :
    ptrFixupsOf R (xs ++ ys) = ptrFixupsOf R xs ++ ptrFixupsOf R ys := by
  simp [ptrFixupsOf]

theorem ptrFixupsOf_single (R : Registry) (r : Record) (td : TypeDesc)
    (hft : findType R r.typeId = some td) :
    ptrFixupsOf R [r] = recordFixups td r := by
  simp [ptrFixupsOf, hft]

theorem recordIds_append (xs ys : List Record) :
    recordIds (xs ++ ys) = recordIds xs ++ recordIds ys := by
  simp [recordIds]

theorem bsf_contains_append (l1 l2 : List Nat) (a : Nat) :
    (l1 ++ l2).contains a = (l1.contains a || l2.contains a) := by
  induction l1 with
  | nil => simp
  | cons x xs ih => by_cases hx : a = x <;> simp [hx, ih]

theorem bsf_contains_single (x a : Nat) : ([x] : List Nat).contains a = (a == x) := by
  by_cases hx : a = x
  · simp [hx]
  · simp only [List.contains_cons, List.contains_nil, Bool.or_false]

theorem buildAll_char (R : Registry) :
    ∀ (rs2 rs1 : List Record) (st st' : DecState),
    st.constructedIds = recordIds rs1 →
    st.fixups = (ptrFixupsOf R rs1).filter
      (fun fx => !((recordIds rs1).contains fx.target)) →
    buildAll R rs2 st = .ok st' →
    st'.constructedIds = recordIds (rs1 ++ rs2) ∧
    st'.fixups = (ptrFixupsOf R (rs1 ++ rs2)).filter
      (fun fx => !((recordIds (rs1 ++ rs2)).contains fx.target))
  | [], rs1, st, st', hids, hfx, h => by
      simp only [buildAll, Except.ok.injEq] at h
      subst h
      simpa [hids] using hfx
  | r :: rs2, rs1, st, st', hids, hfx, h => by
      simp only [buildAll] at h
      cases hr : buildRecord R r st with
      | error e => rw [hr] at h; exact Except.noConfusion h
      | ok st1 =>
          rw [hr] at h
          obtain ⟨td, hft, hids1, hfx1⟩ := buildRecord_ok R r st st1 hr
          have hids1' : st1.constructedIds = recordIds (rs1 ++ [r]) := by
            rw [hids1, hids, recordIds_append]
            rfl
          have hfx1' : st1.fixups = (ptrFixupsOf R (rs1 ++ [r])).filter
              (fun fx => !((recordIds (rs1 ++ [r])).contains fx.target)) := by
            rw [hfx1, hfx, hids]
            rw [ptrFixupsOf_append, List.filter_append,
              ptrFixupsOf_single R r td hft]
            congr 1
            · rw [List.filter_filter]
              apply List.filter_congr
              intro fx _
              show ((fx.target != r.refId) && !((recordIds rs1).contains fx.target))
                = !((recordIds (rs1 ++ [r])).contains fx.target)
              rw [recordIds_append, show recordIds [r] = [r.refId] from rfl,
                bsf_contains_append, bsf_contains_single, Bool.not_or]
              exact Bool.and_comm _ _
            · apply List.filter_congr
              intro fx _
              show (!((recordIds rs1 ++ [r.refId]).contains fx.target))
                = !((recordIds (rs1 ++ [r])).contains fx.target)
              rw [recordIds_append]
              rfl
          have hrest := buildAll_char R rs2 (rs1 ++ [r]) st1 st' hids1' hfx1' h
          rw [List.append_assoc] at hrest
          exact hrest

/-- C4: after the entire stream is consumed, the pending fix-up queue is empty
if and only if every `ReflectablePtr` target reference id referenced by the
stream appears among the stream's record reference ids; and a non-empty queue
at end-of-stream makes the decode fail with `DanglingReferenceError` rather
than return a partial object graph. -/
theorem c4_dangling_reference_detected (R : Registry) (toks : List Nat)
    (rs : List Record) (st : DecState)
    (hp : parse toks = some rs) (hb : buildAll R rs ⟨[], []⟩ = .ok st) :
    (st.fixups = [] ↔ ∀ t ∈ ptrTargets R rs, t ∈ recordIds rs) ∧
    (st.fixups ≠ [] →
      ∃ rid, decode R toks = .error (.danglingReference rid)) := by
  obtain ⟨hids, hfx⟩ := buildAll_char R rs [] ⟨[], []⟩ st rfl rfl hb
  rw [List.nil_append] at hids hfx
  constructor
  · rw [hfx, List.filter_eq_nil_iff]
    constructor
    · intro hall t ht
      obtain ⟨fx, hfxmem, rfl⟩ := List.mem_map.mp ht
      have hc := hall fx hfxmem
      rw [← bsf_contains_iff_mem]
      cases hcc : (recordIds rs).contains fx.target with
      | true => rfl
      | false => exact absurd (by rw [hcc]; rfl) hc
    · intro hmem fx hfxmem
      have ht : fx.target ∈ recordIds rs :=
        hmem fx.target (List.mem_map_of_mem _ hfxmem)
      rw [(bsf_contains_iff_mem _ _).mpr ht]
      simp
  · intro hne
    obtain ⟨heap0, fixups0⟩ := st
    cases fixups0 with
    | nil => exact absurd rfl hne
    | cons fx rest =>
        refine ⟨fx.target, ?_⟩
        cases rs with
        | nil =>
            simp only [buildAll, Except.ok.injEq] at hb
            simp at hb
        | cons r0 rest2 =>
            have hd : decode R toks = build R (r0 :: rest2) := by
              unfold decode
              rw [hp]
            rw [hd]
            unfold build
            rw [hb]

/-- C4 witness: a concrete one-record stream whose single pointer field
references reference id 1, which never appears; the fix-up queue is non-empty
at end-of-stream and the decode fails with `DanglingReferenceError`. -/
theorem c4_dangling_reference_detected_witness :
    ((⟨[(0, ⟨100, [(1, .ptr none)]⟩)], [⟨0, 1, 1⟩]⟩ : DecState).fixups = [] ↔
      ∀ t ∈ ptrTargets [⟨100, 1, [⟨1, .reflectablePtr false⟩]⟩]
          [⟨0, 100, 1, [⟨1, .rptr (some 1)⟩]⟩],
        t ∈ recordIds [⟨0, 100, 1, [⟨1, .rptr (some 1)⟩]⟩]) ∧
    ((⟨[(0, ⟨100, [(1, .ptr none)]⟩)], [⟨0, 1, 1⟩]⟩ : DecState).fixups ≠ [] →
      ∃ rid, decode [⟨100, 1, [⟨1, .reflectablePtr false⟩]⟩]
          [0, 100, 1, 1, 1, 3, 0, 1, 2] = .error (.danglingReference rid)) :=
  c4_dangling_reference_detected [⟨100, 1, [⟨1, .reflectablePtr false⟩]⟩]
    [0, 100, 1, 1, 1, 3, 0, 1, 2] [⟨0, 100, 1, [⟨1, .rptr (some 1)⟩]⟩]
    ⟨[(0, ⟨100, [(1, .ptr none)]⟩)], [⟨0, 1, 1⟩]⟩ (by rfl) (by rfl)

/-! ## Walker-side lemmas -/

theorem alookup_mem (φ : List (Nat × Nat)) (a i : Nat)
    (h : alookup φ a = some i) : (a, i) ∈ φ := by
  unfold alookup at h
  cases hf : φ.find? (fun p => p.1 == a) with
  | none => rw [hf] at h; exact Option.noConfusion h
  | some p =>
      rw [hf] at h
      have hp := List.find?_some hf
      have hm := List.mem_of_find?_eq_some hf
      obtain ⟨p1, p2⟩ := p
      simp only [Option.map_some', Option.some.injEq] at h
      simp only [beq_iff_eq] at hp
      subst hp
      subst h
      exact hm

theorem alookup_none_iff (φ : List (Nat × Nat)) (a : Nat) :
    alookup φ a = none ↔ a ∉ φ.map Prod.fst := by
  unfold alookup
  rw [Option.map_eq_none', List.find?_eq_none]
  constructor
  · intro h hmem
    obtain ⟨p, hp, hfst⟩ := List.mem_map.mp hmem
    exact h p hp (by simp [hfst])
  · intro h p hp hbeq
    exact h (List.mem_map.mpr ⟨p, hp, by simpa using hbeq⟩)

theorem alookup_append (φ ψ : List (Nat × Nat)) (a : Nat) :
    alookup (φ ++ ψ) a = (alookup φ a).or (alookup ψ a) := by
  unfold alookup
  rw [List.find?_append]
  cases φ.find? (fun p => p.1 == a) <;> simp

theorem extends_refl (φ : List (Nat × Nat)) : Extends φ φ :=
  fun _ _ h => h

theorem extends_trans {φ3 φ2 φ1 : List (Nat × Nat)}
    (h32 : Extends φ3 φ2) (h21 : Extends φ2 φ1) : Extends φ3 φ1 :=
  fun a i h => h32 a i (h21 a i h)

theorem extends_append (φ ψ : List (Nat × Nat)) : Extends (φ ++ ψ) φ := by
  intro a i h
  rw [alookup_append, h]
  rfl

theorem extends_isSome {φ2 φ1 : List (Nat × Nat)} (h : Extends φ2 φ1)
    {a : Nat} (hs : (alookup φ1 a).isSome) : (alookup φ2 a).isSome := by
  cases hl : alookup φ1 a with
  | none => rw [hl] at hs; exact absurd hs (by simp)
  | some i => rw [h a i hl]; rfl

theorem lookupId_eq (st : WalkSt) (a : Nat) :
    st.lookupId a = alookup st.idOf a := rfl

theorem assignId_char (G : Graph) (st : WalkSt) (a : Nat) (ha : a ∈ G.keys)
    (hinv : WalkInv G st) :
    alookup (assignId st a).2.idOf a = some (assignId st a).1 ∧
    Extends (assignId st a).2.idOf st.idOf ∧
    (assignId st a).2.seen = st.seen ∧
    (assignId st a).2.newq = st.newq ∧
    st.nextId ≤ (assignId st a).2.nextId ∧
    WalkInv G (assignId st a).2 := by
  unfold assignId
  rw [lookupId_eq]
  cases hl : alookup st.idOf a with
  | some i => exact ⟨hl, extends_refl _, rfl, rfl, Nat.le_refl _, hinv⟩
  | none =>
      have hnotin : a ∉ st.idOf.map Prod.fst := (alookup_none_iff _ _).mp hl
      have hext : Extends (st.idOf ++ [(a, st.nextId)]) st.idOf :=
        extends_append _ _
      refine ⟨?_, hext, rfl, rfl, Nat.le_succ _, ?_⟩
      · rw [alookup_append, hl]
        simp [alookup]
      · constructor
        · rw [List.map_append]
          exact List.Nodup.append hinv.idKeysNodup (by simp)
            (by intro x hx hx2; simp at hx2; subst hx2; exact hnotin hx)
        · intro p hp
          rcases List.mem_append.mp hp with hp | hp
          · exact Nat.lt_succ_of_lt (hinv.idValsBound p hp)
          · simp at hp
            subst hp
            exact Nat.lt_succ_self _
        · rw [List.map_append]
          refine List.Nodup.append hinv.idValsNodup (by simp) ?_
          intro x hx hx2
          simp at hx2
          subst hx2
          obtain ⟨p, hp, hsnd⟩ := List.mem_map.mp hx
          exact absurd (hsnd ▸ hinv.idValsBound p hp) (Nat.lt_irrefl _)
        · exact hinv.seenNodup
        · intro b hb
          exact extends_isSome hext (hinv.seenAssigned b hb)
        · exact hinv.seenInHeap
        · intro p hp
          rcases List.mem_append.mp hp with hp | hp
          · exact hinv.idKeysInHeap p hp
          · simp at hp
            subst hp
            exact ha

theorem touchStrong_char (G : Graph) (st : WalkSt) (a : Nat) (ha : a ∈ G.keys)
    (hassigned : (alookup st.idOf a).isSome) (hinv : WalkInv G st) :
    (touchStrong st a).idOf = st.idOf ∧
    (touchStrong st a).nextId = st.nextId ∧
    (∃ δ, (touchStrong st a).seen = st.seen ++ δ ∧
      (touchStrong st a).newq = st.newq ++ δ) ∧
    a ∈ (touchStrong st a).seen ∧
    WalkInv G (touchStrong st a) := by
  unfold touchStrong
  by_cases hmem : a ∈ st.seen
  · rw [if_pos hmem]
    exact ⟨rfl, rfl, ⟨[], by rw [List.append_nil], by rw [List.append_nil]⟩,
      hmem, hinv⟩
  · rw [if_neg hmem]
    refine ⟨rfl, rfl, ⟨[a], rfl, rfl⟩, by simp, ?_⟩
    refine ⟨hinv.idKeysNodup, hinv.idValsBound, hinv.idValsNodup, ?_, ?_, ?_,
      hinv.idKeysInHeap⟩
    · exact List.Nodup.append hinv.seenNodup (by simp)
        (by intro x hx hx2; simp at hx2; subst hx2; exact hmem hx)
    · intro b hb
      rcases List.mem_append.mp hb with hb | hb
      · exact hinv.seenAssigned b hb
      · simp at hb
        subst hb
        exact hassigned
    · intro b hb
      rcases List.mem_append.mp hb with hb | hb
      · exact hinv.seenInHeap b hb
      · simp at hb
        subst hb
        exact ha

theorem walkVal_char (G : Graph) (kind : FieldKind) (v : Val) (st : WalkSt)
    (hinv : WalkInv G st)
    (hkm : ∀ w t, kind = .reflectablePtr w → v = .ptr (some t) → t ∈ G.keys) :
    WalkInv G (walkVal kind v st).2 ∧
    Extends (walkVal kind v st).2.idOf st.idOf ∧
    st.nextId ≤ (walkVal kind v st).2.nextId ∧
    (∃ δ, (walkVal kind v st).2.seen = st.seen ++ δ ∧
      (walkVal kind v st).2.newq = st.newq ++ δ) ∧
    (∀ φ, Extends φ (walkVal kind v st).2.idOf →
      (walkVal kind v st).1 = renderVal φ kind v) ∧
    (∀ t, kind = .reflectablePtr false → v = .ptr (some t) →
      t ∈ (walkVal kind v st).2.seen) ∧
    (∀ w t, kind = .reflectablePtr w → v = .ptr (some t) →
      (alookup (walkVal kind v st).2.idOf t).isSome) := by
  cases kind with
  | plain =>
      cases v with
      | plain n =>
          exact ⟨hinv, extends_refl _, Nat.le_refl _, ⟨[], by rw [List.append_nil]; rfl, by rw [List.append_nil]; rfl⟩,
            fun φ _ => rfl, fun t hk => FieldKind.noConfusion hk,
            fun w t hk => FieldKind.noConfusion hk⟩
      | block bs =>
          exact ⟨hinv, extends_refl _, Nat.le_refl _, ⟨[], by rw [List.append_nil]; rfl, by rw [List.append_nil]; rfl⟩,
            fun φ _ => rfl, fun t hk => FieldKind.noConfusion hk,
            fun w t hk => FieldKind.noConfusion hk⟩
      | ptr o =>
          exact ⟨hinv, extends_refl _, Nat.le_refl _, ⟨[], by rw [List.append_nil]; rfl, by rw [List.append_nil]; rfl⟩,
            fun φ _ => rfl, fun t hk => FieldKind.noConfusion hk,
            fun w t hk => FieldKind.noConfusion hk⟩
  | dataBlock =>
      cases v with
      | plain n =>
          exact ⟨hinv, extends_refl _, Nat.le_refl _, ⟨[], by rw [List.append_nil]; rfl, by rw [List.append_nil]; rfl⟩,
            fun φ _ => rfl, fun t hk => FieldKind.noConfusion hk,
            fun w t hk => FieldKind.noConfusion hk⟩
      | block bs =>
          exact ⟨hinv, extends_refl _, Nat.le_refl _, ⟨[], by rw [List.append_nil]; rfl, by rw [List.append_nil]; rfl⟩,
            fun φ _ => rfl, fun t hk => FieldKind.noConfusion hk,
            fun w t hk => FieldKind.noConfusion hk⟩
      | ptr o =>
          exact ⟨hinv, extends_refl _, Nat.le_refl _, ⟨[], by rw [List.append_nil]; rfl, by rw [List.append_nil]; rfl⟩,
            fun φ _ => rfl, fun t hk => FieldKind.noConfusion hk,
            fun w t hk => FieldKind.noConfusion hk⟩
  | reflectablePtr w =>
      cases v with
      | plain n =>
          exact ⟨hinv, extends_refl _, Nat.le_refl _, ⟨[], by rw [List.append_nil]; rfl, by rw [List.append_nil]; rfl⟩,
            fun φ _ => rfl, fun t _ hv => Val.noConfusion hv,
            fun w' t _ hv => Val.noConfusion hv⟩
      | block bs =>
          exact ⟨hinv, extends_refl _, Nat.le_refl _, ⟨[], by rw [List.append_nil]; rfl, by rw [List.append_nil]; rfl⟩,
            fun φ _ => rfl, fun t _ hv => Val.noConfusion hv,
            fun w' t _ hv => Val.noConfusion hv⟩
      | ptr o =>
          cases o with
          | none =>
              refine ⟨hinv, extends_refl _, Nat.le_refl _, ⟨[], by rw [List.append_nil]; rfl, by rw [List.append_nil]; rfl⟩,
                fun φ _ => rfl, ?_, ?_⟩
              · intro t _ hv
                injection hv with h2
                exact Option.noConfusion h2
              · intro w' t _ hv
                injection hv with h2
                exact Option.noConfusion h2
          | some a =>
              have hak : a ∈ G.keys := hkm w a rfl rfl
              have hAC := assignId_char G st a hak hinv
              rcases hA : assignId st a with ⟨i, st1⟩
              rw [hA] at hAC
              obtain ⟨hach, hacx, hacs, hacq, hacn, haci⟩ := hAC
              cases w with
              | true =>
                  have hred : walkVal (.reflectablePtr true) (.ptr (some a)) st
                      = (.rptr (some i), st1) := by
                    simp [walkVal, hA]
                  rw [hred]
                  refine ⟨haci, hacx, hacn, ⟨[], by rw [List.append_nil]; exact hacs, by rw [List.append_nil]; exact hacq⟩,
                    ?_, ?_, ?_⟩
                  · intro φ hφ
                    have := hφ a i hach
                    simp [renderVal, this]
                  · intro t hk
                    injection hk with h2
                    exact Bool.noConfusion h2
                  · intro w' t _ hv
                    injection hv with h2
                    injection h2 with h3
                    subst h3
                    rw [hach]
                    rfl
              | false =>
                  have hTC := touchStrong_char G st1 a hak
                    (by rw [hach]; rfl) haci
                  obtain ⟨htid, htn, ⟨δ, hts, htq⟩, htmem, hti⟩ := hTC
                  have hred : walkVal (.reflectablePtr false) (.ptr (some a)) st
                      = (.rptr (some i), touchStrong st1 a) := by
                    simp [walkVal, hA]
                  rw [hred]
                  refine ⟨hti, ?_, ?_, ⟨δ, ?_, ?_⟩, ?_, ?_, ?_⟩
                  · rw [htid]
                    exact hacx
                  · rw [htn]
                    exact hacn
                  · rw [hts, hacs]
                  · rw [htq, hacq]
                  · intro φ hφ
                    have hla : alookup (touchStrong st1 a).idOf a = some i := by
                      rw [htid]
                      exact hach
                    have := hφ a i hla
                    simp [renderVal, this]
                  · intro t _ hv
                    injection hv with h2
                    injection h2 with h3
                    subst h3
                    exact htmem
                  · intro w' t _ hv
                    injection hv with h2
                    injection h2 with h3
                    subst h3
                    rw [htid, hach]
                    rfl

theorem walkFields_char (G : Graph) (o : Obj) :
    ∀ (fds : List FieldDesc) (st : WalkSt),
    WalkInv G st →
    (∀ fd ∈ fds, ∀ w t, fd.kind = .reflectablePtr w →
      o.fieldVal fd = .ptr (some t) → t ∈ G.keys) →
    WalkInv G (walkFields o fds st).2 ∧
    Extends (walkFields o fds st).2.idOf st.idOf ∧
    st.nextId ≤ (walkFields o fds st).2.nextId ∧
    (∃ δ, (walkFields o fds st).2.seen = st.seen ++ δ ∧
      (walkFields o fds st).2.newq = st.newq ++ δ) ∧
    (∀ φ, Extends φ (walkFields o fds st).2.idOf →
      (walkFields o fds st).1 = renderFields φ fds o) ∧
    (∀ t, t ∈ succsBy (fun w => !w) fds o → t ∈ (walkFields o fds st).2.seen) ∧
    (∀ t, t ∈ succsBy (fun _ => true) fds o →
      (alookup (walkFields o fds st).2.idOf t).isSome)
  | [], st, hinv, _ => by
      refine ⟨hinv, extends_refl _, Nat.le_refl _,
        ⟨[], by rw [List.append_nil]; rfl, by rw [List.append_nil]; rfl⟩,
        fun φ _ => rfl, ?_, ?_⟩
      · intro t ht
        exact absurd ht (by simp [succsBy])
      · intro t ht
        exact absurd ht (by simp [succsBy])
  | fd :: rest, st, hinv, hkm => by
      have hkmfd : ∀ w t, fd.kind = .reflectablePtr w →
          o.fieldVal fd = .ptr (some t) → t ∈ G.keys :=
        fun w t hk hv => hkm fd (by simp) w t hk hv
      have CW := walkVal_char G fd.kind (o.fieldVal fd) st hinv hkmfd
      rcases hV : walkVal fd.kind (o.fieldVal fd) st with ⟨rv, st1⟩
      rw [hV] at CW
      obtain ⟨cw1, cw2, cw3, ⟨δ1, cw4s, cw4q⟩, cw5, cw6, cw7⟩ := CW
      have IH := walkFields_char G o rest st1 cw1
        (fun f hf w t hk hv => hkm f (by simp [hf]) w t hk hv)
      rcases hR : walkFields o rest st1 with ⟨rfs, st2⟩
      rw [hR] at IH
      obtain ⟨ih1, ih2, ih3, ⟨δ2, ih4s, ih4q⟩, ih5, ih6, ih7⟩ := IH
      have hfv : ((o.fields.find? (fun p => p.1 == fd.fieldId)).map Prod.snd).getD
          (defaultVal fd.kind) = o.fieldVal fd := rfl
      have hred : walkFields o (fd :: rest) st = (⟨fd.fieldId, rv⟩ :: rfs, st2) := by
        simp only [walkFields, hfv, hV, hR]
      rw [hred]
      have hx21 : Extends st2.idOf st1.idOf := ih2
      refine ⟨ih1, extends_trans ih2 cw2, Nat.le_trans cw3 ih3,
        ⟨δ1 ++ δ2, by rw [ih4s, cw4s, List.append_assoc],
          by rw [ih4q, cw4q, List.append_assoc]⟩, ?_, ?_, ?_⟩
      · intro φ hφ
        have hφ1 : Extends φ st1.idOf := extends_trans hφ hx21
        rw [renderFields, List.map_cons]
        have h1 := cw5 φ hφ1
        have h2 := ih5 φ hφ
        rw [← renderFields, ← h2, ← h1]
      · intro t ht
        rw [succsBy, List.filterMap_cons] at ht
        rcases hkind : fd.kind with _ | _ | w
        · rw [hkind] at ht
          exact ih6 t ht
        · rw [hkind] at ht
          exact ih6 t ht
        · rw [hkind] at ht
          cases w with
          | true => simpa using ih6 t (by simpa [succsBy] using ht)
          | false =>
              simp only [Bool.not_false, if_pos] at ht
              cases hfind : (o.fields.find? (fun p => p.1 == fd.fieldId)).map
                  Prod.snd with
              | none =>
                  rw [hfind] at ht
                  exact ih6 t ht
              | some v0 =>
                  rw [hfind] at ht
                  cases v0 with
                  | plain n => exact ih6 t ht
                  | block bs => exact ih6 t ht
                  | ptr ov =>
                      cases ov with
                      | none => exact ih6 t ht
                      | some t0 =>
                          rcases List.mem_cons.mp ht with rfl | ht2
                          · have hval : o.fieldVal fd = .ptr (some t) := by
                              rw [Obj.fieldVal, hfind]
                              rfl
                            have := cw6 t (by rw [hkind]) hval
                            rcases ih4s.symm ▸ List.mem_append.mpr
                              (Or.inl this) with h
                            exact h
                          · exact ih6 t ht2
      · intro t ht
        rw [succsBy, List.filterMap_cons] at ht
        rcases hkind : fd.kind with _ | _ | w
        · rw [hkind] at ht
          exact ih7 t ht
        · rw [hkind] at ht
          exact ih7 t ht
        · rw [hkind] at ht
          simp only [if_pos] at ht
          cases hfind : (o.fields.find? (fun p => p.1 == fd.fieldId)).map
              Prod.snd with
          | none =>
              rw [hfind] at ht
              exact ih7 t ht
          | some v0 =>
              rw [hfind] at ht
              cases v0 with
              | plain n => exact ih7 t ht
              | block bs => exact ih7 t ht
              | ptr ov =>
                  cases ov with
                  | none => exact ih7 t ht
                  | some t0 =>
                      rcases List.mem_cons.mp ht with rfl | ht2
                      · have hval : o.fieldVal fd = .ptr (some t) := by
                          rw [Obj.fieldVal, hfind]
                          rfl
                        exact extends_isSome hx21 (cw7 w t (by rw [hkind]) hval)
                      · exact ih7 t ht2

theorem fieldsAligned_forall₂ (G : Graph) :
    ∀ (fds : List FieldDesc) (fvs : List (Nat × Val)),
    fieldsAligned G fds fvs = true →
    List.Forall₂ (fun fd (p : Nat × Val) =>
      p.1 = fd.fieldId ∧ kindMatch G fd.kind p.2 = true) fds fvs
  | [], [], _ => List.Forall₂.nil
  | fd :: fds, p :: fvs, h => by
      simp only [fieldsAligned, Bool.and_eq_true, beq_iff_eq] at h
      exact List.Forall₂.cons ⟨h.1.1, h.1.2⟩ (fieldsAligned_forall₂ G fds fvs h.2)
  | [], _ :: _, h => by simp [fieldsAligned] at h
  | _ :: _, [], h => by simp [fieldsAligned] at h

theorem find_aligned (G : Graph) :
    ∀ {fds : List FieldDesc} {fvs : List (Nat × Val)} (fd : FieldDesc),
    List.Forall₂ (fun fd (p : Nat × Val) =>
      p.1 = fd.fieldId ∧ kindMatch G fd.kind p.2 = true) fds fvs →
    (fds.map FieldDesc.fieldId).Nodup →
    fd ∈ fds →
    ∃ v, fvs.find? (fun p => p.1 == fd.fieldId) = some (fd.fieldId, v) ∧
      kindMatch G fd.kind v = true := by
  intro fds fvs fd hall hnd hmem
  induction hall with
  | nil => exact absurd hmem (by simp)
  | cons hrel hrest ih =>
      rename_i fd0 p0 fds' fvs'
      simp only [List.map_cons, List.nodup_cons] at hnd
      rcases List.mem_cons.mp hmem with rfl | hmem2
      · refine ⟨p0.2, ?_, hrel.2⟩
        rw [List.find?_cons, show (p0.1 == fd.fieldId) = true by simp [hrel.1]]
        rw [show (fd.fieldId, p0.2) = p0 by rw [← hrel.1]]
      · have hne : p0.1 ≠ fd.fieldId := by
          rw [hrel.1]
          intro hcontra
          exact hnd.1 (by rw [hcontra]; exact List.mem_map_of_mem _ hmem2)
        rw [List.find?_cons, show (p0.1 == fd.fieldId) = false by simp [hne]]
        exact ih hnd.2 hmem2

theorem fieldVal_of_find (o : Obj) (fd : FieldDesc) (v : Val)
    (h : o.fields.find? (fun p => p.1 == fd.fieldId) = some (fd.fieldId, v)) :
    o.fieldVal fd = v := by
  rw [Obj.fieldVal, h]
  rfl

theorem graph_get_mem {G : Graph} {a : Nat} {o : Obj} (h : G.get a = some o) :
    (a, o) ∈ G.heap := by
  unfold Graph.get at h
  cases hf : G.heap.find? (fun p => p.1 == a) with
  | none => rw [hf] at h; exact Option.noConfusion h
  | some p =>
      rw [hf] at h
      have hp := List.find?_some hf
      have hm := List.mem_of_find?_eq_some hf
      obtain ⟨p1, p2⟩ := p
      simp only [Option.map_some', Option.some.injEq] at h
      simp only [beq_iff_eq] at hp
      subst hp
      subst h
      exact hm

theorem graph_get_isSome_iff (G : Graph) (a : Nat) :
    (G.get a).isSome = true ↔ a ∈ G.keys := by
  unfold Graph.get Graph.keys
  rw [Option.isSome_map']
  rw [bsf_find_pair_isSome]
  exact bsf_contains_iff_mem _ _

theorem strictSorted_pairwise : ∀ l : List Nat, strictSorted l = true →
    l.Pairwise (· < ·)
  | [], _ => List.Pairwise.nil
  | [a], _ => by simp
  | a :: b :: rest, h => by
      simp only [strictSorted, Bool.and_eq_true, decide_eq_true_eq] at h
      have ih := strictSorted_pairwise (b :: rest) h.2
      refine List.Pairwise.cons ?_ ih
      intro x hx
      rcases List.mem_cons.mp hx with rfl | hx2
      · exact h.1
      · have hb := (List.pairwise_cons.mp ih).1 x hx2
        exact Nat.lt_trans h.1 hb

theorem strictSorted_nodup (l : List Nat) (h : strictSorted l = true) :
    l.Nodup :=
  (strictSorted_pairwise l h).imp Nat.ne_of_lt

theorem WF_typed {R : Registry} {G : Graph} (hWF : WF R G) {a : Nat} {o : Obj}
    (hget : G.get a = some o) :
    ∃ td, findType R o.typeId = some td ∧
      strictSorted (td.fields.map FieldDesc.fieldId) = true ∧
      fieldsAligned G td.fields o.fields = true := by
  have hmem := graph_get_mem hget
  have hw := hWF.2.2 (a, o) hmem
  unfold wfTyped at hw
  cases hft : findType R o.typeId with
  | none => rw [hft] at hw; exact Bool.noConfusion hw
  | some td =>
      rw [hft] at hw
      simp only [Bool.and_eq_true] at hw
      exact ⟨td, rfl, hw.1, hw.2⟩

theorem WF_hkm {G : Graph} {o : Obj} {td : TypeDesc}
    (hsorted : strictSorted (td.fields.map FieldDesc.fieldId) = true)
    (haligned : fieldsAligned G td.fields o.fields = true) :
    ∀ fd ∈ td.fields, ∀ w t, fd.kind = .reflectablePtr w →
      o.fieldVal fd = .ptr (some t) → t ∈ G.keys := by
  intro fd hfd w t hkind hval
  obtain ⟨v, hfind, hkm⟩ := find_aligned G fd
    (fieldsAligned_forall₂ G td.fields o.fields haligned)
    (strictSorted_nodup _ hsorted) hfd
  have hv : o.fieldVal fd = v := fieldVal_of_find o fd v hfind
  rw [hval] at hv
  rw [hkind, ← hv] at hkm
  unfold kindMatch at hkm
  exact (bsf_contains_iff_mem _ _).mp hkm

theorem walkObj_char {R : Registry} {G : Graph} {a : Nat} {st : WalkSt}
    {rec : Record} {st1 : WalkSt}
    (hWF : WF R G) (h : walkObj R G a st = some (rec, st1))
    (hinv : WalkInv G st) (has : (alookup st.idOf a).isSome) :
    ∃ o td,
      G.get a = some o ∧ findType R o.typeId = some td ∧
      WalkInv G st1 ∧ Extends st1.idOf st.idOf ∧ st.nextId ≤ st1.nextId ∧
      (∃ δ, st1.seen = st.seen ++ δ ∧ st1.newq = st.newq ++ δ) ∧
      (∀ φ, Extends φ st1.idOf → Extends φ st.idOf →
        rec = renderRecord φ td o a) ∧
      (∀ t, t ∈ strongSuccs R G a → t ∈ st1.seen) ∧
      (∀ t, t ∈ anySuccs R G a → (alookup st1.idOf t).isSome) := by
  cases hget : G.get a with
  | none =>
      simp only [walkObj, hget] at h
      exact Option.noConfusion h
  | some o =>
      cases hft : findType R o.typeId with
      | none =>
          simp only [walkObj, hget, hft] at h
          exact Option.noConfusion h
      | some td =>
          obtain ⟨td', hft', hsorted, haligned⟩ := WF_typed hWF hget
          rw [hft] at hft'
          injection hft' with htd
          subst htd
          have hkm := WF_hkm hsorted haligned
          have CW := walkFields_char G o td.fields st hinv hkm
          rcases hW : walkFields o td.fields st with ⟨rfs, stw⟩
          rw [hW] at CW
          obtain ⟨cw1, cw2, cw3, cw4, cw5, cw6, cw7⟩ := CW
          simp only [walkObj, hget, hft, hW, Option.some.injEq,
            Prod.mk.injEq] at h
          obtain ⟨hrec, hst1⟩ := h
          subst hst1
          refine ⟨o, td, rfl, hft, cw1, cw2, cw3, cw4, ?_, ?_, ?_⟩
          · intro φ hφ1 hφ0
            rw [← hrec]
            unfold renderRecord
            have hflds := cw5 φ hφ1
            rw [← hflds]
            have hrefid : (st.lookupId a).getD 0 = (alookup φ a).getD 0 := by
              rw [lookupId_eq]
              cases hla : alookup st.idOf a with
              | none => rw [hla] at has; exact absurd has (by simp)
              | some i => rw [hφ0 a i hla]
            rw [hrefid]
          · intro t ht
            apply cw6
            simpa only [strongSuccs, succsOf, hget, hft] using ht
          · intro t ht
            apply cw7
            simpa only [anySuccs, succsOf, hget, hft] using ht

theorem walkInv_clear_newq {G : Graph} {st : WalkSt} (h : WalkInv G st) :
    WalkInv G { st with newq := [] } :=
  ⟨h.idKeysNodup, h.idValsBound, h.idValsNodup, h.seenNodup, h.seenAssigned,
    h.seenInHeap, h.idKeysInHeap⟩

theorem walkLoop_char {R : Registry} {G : Graph} (hWF : WF R G) :
    ∀ (fuel : Nat) (q : List Nat) (st : WalkSt) (rs : List Record)
      (stF : WalkSt),
    walkLoop R G fuel q st = some (rs, stF) →
    WalkInv G st →
    (∀ a ∈ q, a ∈ st.seen) →
    q.Nodup →
    ∃ P δ,
      WalkInv G stF ∧ Extends stF.idOf st.idOf ∧
      stF.seen = st.seen ++ δ ∧
      P.Perm (q ++ δ) ∧
      P.head? = q.head? ∧
      List.Forall₂ (fun a r => ∃ o td, G.get a = some o ∧
        findType R o.typeId = some td ∧ r = renderRecord stF.idOf td o a) P rs ∧
      (∀ a ∈ P, ∀ b ∈ strongSuccs R G a, b ∈ stF.seen) ∧
      (∀ a ∈ P, ∀ b ∈ anySuccs R G a, (alookup stF.idOf b).isSome)
  | fuel, [], st, rs, stF, h, hinv, _, _ => by
      simp only [walkLoop, Option.some.injEq, Prod.mk.injEq] at h
      obtain ⟨hrs, hstF⟩ := h
      subst hrs
      subst hstF
      exact ⟨[], [], hinv, extends_refl _, by rw [List.append_nil], by simp,
        rfl, List.Forall₂.nil, by simp, by simp⟩
  | 0, a :: rest, st, rs, stF, h, hinv, hq, hnd => by
      simp only [walkLoop] at h
      exact Option.noConfusion h
  | fuel + 1, a :: rest, st, rs, stF, h, hinv, hq, hnd => by
      have hinv0 := walkInv_clear_newq hinv
      have hamem : a ∈ st.seen := hq a (by simp)
      have has : (alookup st.idOf a).isSome := hinv.seenAssigned a hamem
      cases hO : walkObj R G a { st with newq := [] } with
      | none =>
          simp only [walkLoop, hO] at h
          exact Option.noConfusion h
      | some out =>
          obtain ⟨rec, st1⟩ := out
          obtain ⟨o, td, hget, hft, hinv1, hext1, hn1, ⟨δ1, hδs, hδq⟩,
            hrender, hstrong, hany⟩ := walkObj_char hWF hO hinv0 has
          have hnq : st1.newq = δ1 := by
            rw [hδq]
            rfl
          cases hL : walkLoop R G fuel (st1.newq ++ rest) { st1 with newq := [] }
            with
          | none =>
              simp only [walkLoop, hO, hL] at h
              exact Option.noConfusion h
          | some out2 =>
              obtain ⟨rs', stF'⟩ := out2
              simp only [walkLoop, hO, hL, Option.some.injEq,
                Prod.mk.injEq] at h
              obtain ⟨rfl, rfl⟩ := h
              have hseen1 : st1.seen = st.seen ++ δ1 := hδs
              have hsub1 : ∀ b ∈ st.seen, b ∈ st1.seen := by
                intro b hb
                rw [hseen1]
                exact List.mem_append_left _ hb
              have hδ1sub : ∀ b ∈ δ1, b ∈ st1.seen := by
                intro b hb
                rw [hseen1]
                exact List.mem_append_right _ hb
              have hs1nodup : st1.seen.Nodup := hinv1.seenNodup
              have hδ1disj : ∀ b ∈ δ1, b ∉ st.seen := by
                intro b hb hbst
                rw [hseen1] at hs1nodup
                exact (List.nodup_append.mp hs1nodup).2.2 hbst hb
              have hqrec : ∀ b ∈ st1.newq ++ rest, b ∈ st1.seen := by
                intro b hb
                rcases List.mem_append.mp hb with hb | hb
                · rw [hnq] at hb
                  exact hδ1sub b hb
                · exact hsub1 b (hq b (by simp [hb]))
              have hndrec : (st1.newq ++ rest).Nodup := by
                rw [hnq]
                refine List.Nodup.append ?_ ?_ ?_
                · rw [hseen1] at hs1nodup
                  exact (List.nodup_append.mp hs1nodup).2.1
                · exact (List.nodup_cons.mp hnd).2
                · intro b hb hbrest
                  exact hδ1disj b hb (hq b (by simp [hbrest]))
              obtain ⟨P', δ2, ihInv, ihExt, ihSeen, ihPerm, ihHead, ihAll,
                ihStrong, ihAny⟩ := walkLoop_char hWF fuel (st1.newq ++ rest)
                  { st1 with newq := [] } rs' stF' hL
                  (walkInv_clear_newq hinv1) hqrec hndrec
              have hextF1 : Extends stF'.idOf st1.idOf := ihExt
              have hseenF : stF'.seen = st.seen ++ (δ1 ++ δ2) := by
                have : stF'.seen = st1.seen ++ δ2 := ihSeen
                rw [this, hseen1, List.append_assoc]
              refine ⟨a :: P', δ1 ++ δ2, ihInv,
                extends_trans hextF1 hext1, hseenF, ?_, rfl, ?_, ?_, ?_⟩
              · have h1 : P'.Perm ((δ1 ++ rest) ++ δ2) := by
                  rw [hnq] at ihPerm
                  exact ihPerm
                have h2 : ((δ1 ++ rest) ++ δ2).Perm ((rest ++ δ1) ++ δ2) :=
                  (List.perm_append_comm).append_right δ2
                have h3 : P'.Perm (rest ++ (δ1 ++ δ2)) := by
                  have := h1.trans h2
                  rwa [List.append_assoc] at this
                exact (h3.cons a)
              · refine List.Forall₂.cons ⟨o, td, hget, hft, ?_⟩ ihAll
                exact hrender stF'.idOf hextF1
                  (extends_trans hextF1 hext1)
              · intro x hx b hb
                rcases List.mem_cons.mp hx with rfl | hx2
                · have := hstrong b hb
                  rw [ihSeen]
                  exact List.mem_append_left _ this
                · exact ihStrong x hx2 b hb
              · intro x hx b hb
                rcases List.mem_cons.mp hx with rfl | hx2
                · exact extends_isSome hextF1 (hany b hb)
                · exact ihAny x hx2 b hb

theorem seen_le_heap {G : Graph} {st : WalkSt} (hinv : WalkInv G st) :
    st.seen.length ≤ G.heap.length := by
  have h1 : st.seen.length ≤ G.keys.length :=
    (List.subperm_of_subset hinv.seenNodup
      (fun a ha => hinv.seenInHeap a ha)).length_le
  rw [Graph.keys, List.length_map] at h1
  exact h1

theorem walkLoop_total {R : Registry} {G : Graph} (hWF : WF R G) :
    ∀ (fuel : Nat) (q : List Nat) (st : WalkSt),
    WalkInv G st →
    (∀ a ∈ q, a ∈ st.seen) →
    q.Nodup →
    q.length + G.heap.length ≤ fuel + st.seen.length →
    ∃ out, walkLoop R G fuel q st = some out
  | fuel, [], st, _, _, _, _ => ⟨([], st), by simp [walkLoop]⟩
  | 0, a :: rest, st, hinv, hq, hnd, hm => by
      exact absurd hm (by
        have := seen_le_heap hinv
        simp only [List.length_cons, Nat.zero_add]
        omega)
  | fuel + 1, a :: rest, st, hinv, hq, hnd, hm => by
      have hinv0 := walkInv_clear_newq hinv
      have hamem : a ∈ st.seen := hq a (by simp)
      have has : (alookup st.idOf a).isSome := hinv.seenAssigned a hamem
      have hgets : (G.get a).isSome :=
        (graph_get_isSome_iff G a).mpr (hinv.seenInHeap a hamem)
      cases hget : G.get a with
      | none => rw [hget] at hgets; exact absurd hgets (by simp)
      | some o =>
          obtain ⟨td, hft, hsorted, haligned⟩ := WF_typed hWF hget
          rcases hW : walkFields o td.fields { st with newq := [] }
            with ⟨rfs, stw⟩
          have hO : walkObj R G a { st with newq := [] } =
              some (⟨(WalkSt.lookupId { st with newq := [] } a).getD 0,
                o.typeId, td.typeVersion, rfs⟩, stw) := by
            simp [walkObj, hget, hft, hW]
          obtain ⟨o', td', hget', hft', hinv1, hext1, hn1, ⟨δ1, hδs, hδq⟩,
            hrender, hstrong, hany⟩ := walkObj_char hWF hO hinv0 has
          have hnq : stw.newq = δ1 := by
            rw [hδq]
            rfl
          have hseen1 : stw.seen = st.seen ++ δ1 := hδs
          have hqrec : ∀ b ∈ stw.newq ++ rest, b ∈ stw.seen := by
            intro b hb
            rcases List.mem_append.mp hb with hb | hb
            · rw [hnq] at hb
              rw [hseen1]
              exact List.mem_append_right _ hb
            · rw [hseen1]
              exact List.mem_append_left _ (hq b (by simp [hb]))
          have hndrec : (stw.newq ++ rest).Nodup := by
            rw [hnq]
            refine List.Nodup.append ?_ ?_ ?_
            · have := hinv1.seenNodup
              rw [hseen1] at this
              exact (List.nodup_append.mp this).2.1
            · exact (List.nodup_cons.mp hnd).2
            · intro b hb hbrest
              have := hinv1.seenNodup
              rw [hseen1] at this
              exact (List.nodup_append.mp this).2.2 (hq b (by simp [hbrest])) hb
          have hmrec : (stw.newq ++ rest).length + G.heap.length ≤
              fuel + stw.seen.length := by
            rw [hnq, hseen1]
            simp only [List.length_append, List.length_cons] at hm ⊢
            omega
          obtain ⟨out2, hL2⟩ := walkLoop_total hWF fuel (stw.newq ++ rest)
            { stw with newq := [] } (walkInv_clear_newq hinv1) hqrec hndrec
            (by simpa using hmrec)
          exact ⟨(⟨(WalkSt.lookupId { st with newq := [] } a).getD 0,
              o.typeId, td.typeVersion, rfs⟩ :: out2.1, out2.2),
            by simp [walkLoop, hO, hL2]⟩

theorem walkFull_char {R : Registry} {G : Graph} (hWF : WF R G) :
    ∃ rs stF, walkFull R G = some (rs, stF) ∧
      WalkInv G stF ∧
      alookup stF.idOf G.root = some 0 ∧
      ∃ P, P.Perm stF.seen ∧ P.head? = some G.root ∧
        List.Forall₂ (fun a r => ∃ o td, G.get a = some o ∧
          findType R o.typeId = some td ∧ r = renderRecord stF.idOf td o a) P
          rs ∧
        (∀ a ∈ P, ∀ b ∈ strongSuccs R G a, b ∈ stF.seen) ∧
        (∀ a ∈ P, ∀ b ∈ anySuccs R G a, (alookup stF.idOf b).isSome) := by
  have hroot : G.root ∈ G.keys := hWF.2.1
  have hinv0 : WalkInv G ⟨[(G.root, 0)], 1, [G.root], []⟩ := by
    refine ⟨by simp, ?_, by simp, by simp, ?_, ?_, ?_⟩
    · intro p hp
      simp at hp
      subst hp
      exact Nat.zero_lt_one
    · intro a ha
      simp at ha
      subst ha
      simp [alookup]
    · intro a ha
      simp at ha
      subst ha
      exact hroot
    · intro p hp
      simp at hp
      subst hp
      exact hroot
  have hq0 : ∀ a ∈ [G.root], a ∈ ([G.root] : List Nat) := fun a ha => ha
  have hm0 : ([G.root] : List Nat).length + G.heap.length ≤
      G.heap.length + ([G.root] : List Nat).length := by omega
  obtain ⟨⟨rs, stF⟩, hL⟩ := walkLoop_total hWF G.heap.length [G.root]
    ⟨[(G.root, 0)], 1, [G.root], []⟩ hinv0 hq0 (by simp) hm0
  obtain ⟨P, δ, hInv, hExt, hSeen, hPerm, hHead, hAll, hStrong, hAny⟩ :=
    walkLoop_char hWF G.heap.length [G.root] ⟨[(G.root, 0)], 1, [G.root], []⟩
      rs stF hL hinv0 hq0 (by simp)
  refine ⟨rs, stF, hL, hInv, ?_, P, ?_, hHead, hAll, hStrong, hAny⟩
  · exact hExt G.root 0 (by simp [alookup])
  · rw [hSeen]
    exact hPerm

theorem closure_subset {succs : Nat → List Nat} {T : List Nat}
    (hclosed : ∀ a ∈ T, ∀ b ∈ succs a, b ∈ T) :
    ∀ (n : Nat) (S : List Nat), (∀ x ∈ S, x ∈ T) →
    ∀ x ∈ (stepClosure succs)^[n] S, x ∈ T := by
  intro n
  induction n with
  | zero => intro S hS x hx; exact hS x hx
  | succ k ih =>
      intro S hS x hx
      rw [Function.iterate_succ_apply] at hx
      refine ih (stepClosure succs S) ?_ x hx
      intro y hy
      rcases List.mem_append.mp hy with hy | hy
      · exact hS y hy
      · have hy2 := List.mem_of_mem_filter hy
        obtain ⟨a, ha, hya⟩ := List.mem_flatMap.mp hy2
        exact hclosed a (hS a ha) y hya

theorem forall₂_mem_left {α β : Type} {rel : α → β → Prop} :
    ∀ {P : List α} {rs : List β}, List.Forall₂ rel P rs →
    ∀ a ∈ P, ∃ r ∈ rs, rel a r := by
  intro P rs h
  induction h with
  | nil => intro a ha; exact absurd ha (by simp)
  | cons hrel _ ih =>
      intro a ha
      rcases List.mem_cons.mp ha with rfl | ha2
      · exact ⟨_, by simp, hrel⟩
      · obtain ⟨r, hr, hrel2⟩ := ih a ha2
        exact ⟨r, by simp [hr], hrel2⟩

theorem forall₂_mem_right {α β : Type} {rel : α → β → Prop} :
    ∀ {P : List α} {rs : List β}, List.Forall₂ rel P rs →
    ∀ r ∈ rs, ∃ a ∈ P, rel a r := by
  intro P rs h
  induction h with
  | nil => intro r hr; exact absurd hr (by simp)
  | cons hrel _ ih =>
      intro r hr
      rcases List.mem_cons.mp hr with rfl | hr2
      · exact ⟨_, by simp, hrel⟩
      · obtain ⟨a, ha, hrel2⟩ := ih r hr2
        exact ⟨a, by simp [ha], hrel2⟩

theorem alookup_inj {φ : List (Nat × Nat)}
    (hvn : (φ.map Prod.snd).Nodup) {a1 a2 b : Nat}
    (h1 : alookup φ a1 = some b) (h2 : alookup φ a2 = some b) : a1 = a2 := by
  have hm1 := alookup_mem φ a1 b h1
  have hm2 := alookup_mem φ a2 b h2
  have := List.inj_on_of_nodup_map hvn hm1 hm2 rfl
  exact congrArg Prod.fst this

theorem nodup_map_lookup {φ : List (Nat × Nat)}
    (hvn : (φ.map Prod.snd).Nodup) :
    ∀ (P : List Nat), P.Nodup → (∀ a ∈ P, (alookup φ a).isSome) →
    (P.map (fun a => (alookup φ a).getD 0)).Nodup
  | [], _, _ => by simp
  | a :: P', hnd, hsome => by
      rw [List.map_cons, List.nodup_cons]
      constructor
      · intro hmem
        obtain ⟨a', ha', heq⟩ := List.mem_map.mp hmem
        cases hla : alookup φ a with
        | none =>
            have := hsome a (by simp)
            rw [hla] at this
            exact absurd this (by simp)
        | some i =>
            cases hla' : alookup φ a' with
            | none =>
                have := hsome a' (by simp [ha'])
                rw [hla'] at this
                exact absurd this (by simp)
            | some i' =>
                rw [hla, hla'] at heq
                simp only [Option.getD_some] at heq
                rw [heq] at hla'
                have := alookup_inj hvn hla hla'
                subst this
                exact (List.nodup_cons.mp hnd).1 ha'
      · exact nodup_map_lookup hvn P' (List.nodup_cons.mp hnd).2
          (fun a ha => hsome a (by simp [ha]))

theorem rvalMatch_render (φ : List (Nat × Nat)) (k : FieldKind) (v : Val) :
    rvalMatch k (renderVal φ k v) = true := by
  cases k <;> cases v <;> first
    | rfl
    | (rename_i o; cases o <;> rfl)

theorem rfieldsAligned_render (φ : List (Nat × Nat)) (o : Obj) :
    ∀ fds : List FieldDesc,
    rfieldsAligned fds (renderFields φ fds o) = true
  | [] => rfl
  | fd :: fds => by
      show (fd.fieldId == fd.fieldId &&
        rvalMatch fd.kind (renderVal φ fd.kind (o.fieldVal fd)) &&
        rfieldsAligned fds (renderFields φ fds o)) = true
      rw [beq_self_eq_true, rvalMatch_render, rfieldsAligned_render φ o fds]
      rfl

theorem recordIds_of_forall₂ {R : Registry} {G : Graph}
    {φ : List (Nat × Nat)} :
    ∀ {P : List Nat} {rs : List Record},
    List.Forall₂ (fun a r => ∃ o td, G.get a = some o ∧
      findType R o.typeId = some td ∧ r = renderRecord φ td o a) P rs →
    recordIds rs = P.map (fun a => (alookup φ a).getD 0) := by
  intro P rs h
  induction h with
  | nil => rfl
  | cons hrel hrest ih =>
      obtain ⟨o, td, _, _, hr⟩ := hrel
      rw [recordIds, List.map_cons, ← recordIds, ih, List.map_cons, hr]
      rfl

theorem find?_self_of_nodup :
    ∀ {fds : List FieldDesc},
    (fds.map FieldDesc.fieldId).Nodup →
    ∀ {fd : FieldDesc}, fd ∈ fds →
    fds.find? (fun fd' => fd'.fieldId == fd.fieldId) = some fd
  | [], _, fd, hmem => absurd hmem (by simp)
  | fd0 :: fds, hnd, fd, hmem => by
      simp only [List.map_cons, List.nodup_cons] at hnd
      rcases List.mem_cons.mp hmem with rfl | hmem2
      · rw [List.find?_cons, show (fd.fieldId == fd.fieldId) = true by simp]
      · have hne : fd0.fieldId ≠ fd.fieldId := by
          intro hcontra
          exact hnd.1 (by rw [hcontra]; exact List.mem_map_of_mem _ hmem2)
        rw [List.find?_cons, show (fd0.fieldId == fd.fieldId) = false
          by simp [hne]]
        exact find?_self_of_nodup hnd.2 hmem2

theorem recordFixups_render {φ : List (Nat × Nat)} {td : TypeDesc} {o : Obj}
    {a : Nat} (hsorted : strictSorted (td.fields.map FieldDesc.fieldId) = true) :
    ∀ fx ∈ recordFixups td (renderRecord φ td o a),
    ∃ fd ∈ td.fields, ∃ w t, fd.kind = .reflectablePtr w ∧
      o.fieldVal fd = .ptr (some t) ∧ fx.target = (alookup φ t).getD 0 := by
  intro fx hfx
  unfold recordFixups renderRecord at hfx
  obtain ⟨f, hf, hocc⟩ := List.mem_filterMap.mp hfx
  unfold renderFields at hf
  obtain ⟨fd, hfd, hfeq⟩ := List.mem_map.mp hf
  subst hfeq
  have hfind := find?_self_of_nodup (strictSorted_nodup _ hsorted) hfd
  cases hkind : fd.kind with
  | plain =>
      simp only [fieldOcc, hfind, hkind] at hocc
      exact Option.noConfusion hocc
  | dataBlock =>
      simp only [fieldOcc, hfind, hkind] at hocc
      exact Option.noConfusion hocc
  | reflectablePtr w =>
      cases hval : o.fieldVal fd with
      | plain n =>
          simp only [fieldOcc, hfind, hkind, hval, renderVal] at hocc
          exact Option.noConfusion hocc
      | block bs =>
          simp only [fieldOcc, hfind, hkind, hval, renderVal] at hocc
          exact Option.noConfusion hocc
      | ptr ov =>
          cases ov with
          | none =>
              simp only [fieldOcc, hfind, hkind, hval, renderVal] at hocc
              exact Option.noConfusion hocc
          | some t =>
              simp only [fieldOcc, hfind, hkind, hval, renderVal,
                Option.some.injEq] at hocc
              refine ⟨fd, hfd, w, t, hkind, hval, ?_⟩
              rw [← hocc]

/-! ## Resolver-side heap lemmas -/

theorem map_fst_split (h1 h2 : List (Nat × Obj)) (rid : Nat) (o : Obj) :
    (h1 ++ (rid, o) :: h2).map Prod.fst =
      h1.map Prod.fst ++ rid :: h2.map Prod.fst := by
  simp

theorem heapUpdate_split (h1 h2 : List (Nat × Obj)) (rid : Nat) (o : Obj)
    (g : Obj → Obj) (hfresh : rid ∉ (h1 ++ h2).map Prod.fst) :
    heapUpdate (h1 ++ (rid, o) :: h2) rid g = h1 ++ (rid, g o) :: h2 := by
  unfold heapUpdate
  rw [List.map_append, List.map_cons]
  have hid1 : h1.map (fun p => if p.1 == rid then (p.1, g p.2) else p) = h1 := by
    conv_rhs => rw [← List.map_id h1]
    apply List.map_congr_left
    intro p hp
    have : p.1 ≠ rid := by
      intro hcontra
      exact hfresh (by
        rw [← hcontra]
        exact List.mem_map_of_mem _ (List.mem_append_left _ hp))
    simp [this]
  have hid2 : h2.map (fun p => if p.1 == rid then (p.1, g p.2) else p) = h2 := by
    conv_rhs => rw [← List.map_id h2]
    apply List.map_congr_left
    intro p hp
    have : p.1 ≠ rid := by
      intro hcontra
      exact hfresh (by
        rw [← hcontra]
        exact List.mem_map_of_mem _ (List.mem_append_right _ hp))
    simp [this]
  rw [hid1, hid2]
  simp

theorem setField_split (tid : Nat) (pre post : List (Nat × Val)) (fid : Nat)
    (v d : Val) (hpre : ∀ p ∈ pre, p.1 ≠ fid) (hpost : ∀ p ∈ post, p.1 ≠ fid) :
    setField ⟨tid, pre ++ (fid, d) :: post⟩ fid v =
      ⟨tid, pre ++ (fid, v) :: post⟩ := by
  unfold setField
  simp only [List.map_append, List.map_cons]
  have hid1 : pre.map (fun p => if p.1 == fid then (p.1, v) else p) = pre := by
    conv_rhs => rw [← List.map_id pre]
    apply List.map_congr_left
    intro p hp
    simp [hpre p hp]
  have hid2 : post.map (fun p => if p.1 == fid then (p.1, v) else p) = post := by
    conv_rhs => rw [← List.map_id post]
    apply List.map_congr_left
    intro p hp
    simp [hpost p hp]
  rw [hid1, hid2]
  simp

theorem forall₂_ids {td : TypeDesc} :
    ∀ {fds : List FieldDesc} {fs : List RField},
    List.Forall₂ (fun fd f => f.fieldId = fd.fieldId ∧
      rvalMatch fd.kind f.val = true ∧
      td.fields.find? (fun fd' => fd'.fieldId == f.fieldId) = some fd) fds fs →
    fs.map RField.fieldId = fds.map FieldDesc.fieldId := by
  intro fds fs h
  induction h with
  | nil => rfl
  | cons hrel _ ih => simp [ih, hrel.1]

theorem buildFields_heap (td : TypeDesc) (rid tid : Nat)
    (h1 h2 : List (Nat × Obj)) (hfresh : rid ∉ (h1 ++ h2).map Prod.fst) :
    ∀ {fds : List FieldDesc} {fs : List RField},
    List.Forall₂ (fun fd f => f.fieldId = fd.fieldId ∧
      rvalMatch fd.kind f.val = true ∧
      td.fields.find? (fun fd' => fd'.fieldId == f.fieldId) = some fd) fds fs →
    ∀ (pre : List (Nat × Val)) (fix : List Fixup),
    (fs.map RField.fieldId).Nodup →
    (∀ f ∈ fs, ∀ p ∈ pre, p.1 ≠ f.fieldId) →
    ∃ fix', buildFields td rid fs
      ⟨h1 ++ (rid, ⟨tid, pre ++
        fds.map (fun fd => (fd.fieldId, defaultVal fd.kind))⟩) :: h2, fix⟩
      = .ok ⟨h1 ++ (rid, ⟨tid, pre ++ fs.map (fun f => (f.fieldId,
          partialVal (h1.map Prod.fst ++ rid :: h2.map Prod.fst) f.val))⟩) ::
        h2, fix'⟩ := by
  intro fds fs hall
  induction hall with
  | nil =>
      intro pre fix _ _
      exact ⟨fix, rfl⟩
  | cons hrel hrest ih =>
      rename_i fd f fds' fs'
      intro pre fix hnd hpre
      obtain ⟨hfid, hmatch, hfind⟩ := hrel
      obtain ⟨ffid, fv⟩ := f
      simp only at hfid
      subst hfid
      have hidseq := forall₂_ids hrest
      have hheadnotin : fd.fieldId ∉ fs'.map RField.fieldId := by
        have := hnd
        simp only [List.map_cons, List.nodup_cons] at this
        exact this.1
      have hpostne : ∀ p ∈ fds'.map
          (fun fd => ((fd.fieldId : Nat), defaultVal fd.kind)),
          p.1 ≠ fd.fieldId := by
        intro p hp
        obtain ⟨fd', hfd', rfl⟩ := List.mem_map.mp hp
        intro hcontra
        apply hheadnotin
        rw [hidseq, ← hcontra]
        exact List.mem_map_of_mem _ hfd'
      have hprene : ∀ p ∈ pre, p.1 ≠ fd.fieldId :=
        fun p hp => hpre ⟨fd.fieldId, fv⟩ (by simp) p hp
      have hndrest : (fs'.map RField.fieldId).Nodup := by
        have := hnd
        simp only [List.map_cons, List.nodup_cons] at this
        exact this.2
      have hprerest : ∀ (x : Val), ∀ f' ∈ fs', ∀ p ∈ pre ++ [(fd.fieldId, x)],
          p.1 ≠ f'.fieldId := by
        intro x f' hf' p hp
        rcases List.mem_append.mp hp with hp | hp
        · exact hpre f' (by simp [hf']) p hp
        · simp only [List.mem_singleton] at hp
          subst hp
          show fd.fieldId ≠ f'.fieldId
          intro hcontra
          exact hheadnotin (by rw [hcontra]; exact List.mem_map_of_mem _ hf')
      cases hk : fd.kind with
      | plain =>
          cases fv with
          | rplain v =>
              obtain ⟨fix', hrec⟩ := ih (pre ++ [(fd.fieldId, Val.plain v)])
                fix hndrest (hprerest (Val.plain v))
              refine ⟨fix', ?_⟩
              simp only [buildFields, List.map_cons, buildField, hfind, hk]
              rw [heapUpdate_split _ _ _ _ _ hfresh]
              rw [show defaultVal FieldKind.plain = Val.plain 0 from rfl]
              rw [setField_split tid pre _ fd.fieldId (Val.plain v) (Val.plain 0)
                hprene hpostne]
              rw [show (pre ++ (fd.fieldId, Val.plain v) ::
                fds'.map (fun fd => ((fd.fieldId : Nat), defaultVal fd.kind))) =
                ((pre ++ [(fd.fieldId, Val.plain v)]) ++
                  fds'.map (fun fd => ((fd.fieldId : Nat), defaultVal fd.kind)))
                by rw [List.append_cons]]
              rw [hrec]
              rw [List.append_cons pre _ (fs'.map _)]
              rfl
          | rblock bs => simp [rvalMatch, hk] at hmatch
          | rptr o => simp [rvalMatch, hk] at hmatch
      | dataBlock =>
          cases fv with
          | rplain v => simp [rvalMatch, hk] at hmatch
          | rblock bs =>
              obtain ⟨fix', hrec⟩ := ih (pre ++ [(fd.fieldId, Val.block bs)])
                fix hndrest (hprerest (Val.block bs))
              refine ⟨fix', ?_⟩
              simp only [buildFields, List.map_cons, buildField, hfind, hk]
              rw [heapUpdate_split _ _ _ _ _ hfresh]
              rw [show defaultVal FieldKind.dataBlock = Val.block [] from rfl]
              rw [setField_split tid pre _ fd.fieldId (Val.block bs)
                (Val.block []) hprene hpostne]
              rw [show (pre ++ (fd.fieldId, Val.block bs) ::
                fds'.map (fun fd => ((fd.fieldId : Nat), defaultVal fd.kind))) =
                ((pre ++ [(fd.fieldId, Val.block bs)]) ++
                  fds'.map (fun fd => ((fd.fieldId : Nat), defaultVal fd.kind)))
                by rw [List.append_cons]]
              rw [hrec]
              rw [List.append_cons pre _ (fs'.map _)]
              rfl
          | rptr o => simp [rvalMatch, hk] at hmatch
      | reflectablePtr w =>
          cases fv with
          | rplain v => simp [rvalMatch, hk] at hmatch
          | rblock bs => simp [rvalMatch, hk] at hmatch
          | rptr o =>
              cases o with
              | none =>
                  obtain ⟨fix', hrec⟩ := ih (pre ++ [(fd.fieldId, Val.ptr none)])
                    fix hndrest (hprerest (Val.ptr none))
                  refine ⟨fix', ?_⟩
                  simp only [buildFields, List.map_cons, buildField, hfind, hk]
                  rw [show (pre ++ (fd.fieldId, defaultVal
                    (FieldKind.reflectablePtr w)) ::
                    fds'.map (fun fd => ((fd.fieldId : Nat), defaultVal fd.kind))) =
                    ((pre ++ [(fd.fieldId, Val.ptr none)]) ++
                      fds'.map (fun fd => ((fd.fieldId : Nat), defaultVal fd.kind)))
                    by rw [List.append_cons]; rfl]
                  rw [hrec]
                  rw [List.append_cons pre _ (fs'.map _)]
                  rfl
              | some t =>
                  have hfs : ((h1 ++ (rid, (⟨tid, pre ++ (fd.fieldId, defaultVal
                      (FieldKind.reflectablePtr w)) :: fds'.map
                      (fun fd => ((fd.fieldId : Nat), defaultVal fd.kind))⟩ : Obj))
                      :: h2).find? (fun p => p.1 == t)).isSome =
                      (h1.map Prod.fst ++ rid :: h2.map Prod.fst).contains t := by
                    rw [bsf_find_pair_isSome, map_fst_split]
                  cases hct : (h1.map Prod.fst ++ rid :: h2.map Prod.fst).contains t
                    with
                  | true =>
                      obtain ⟨fix', hrec⟩ := ih
                        (pre ++ [(fd.fieldId, Val.ptr (some t))]) fix hndrest
                        (hprerest (Val.ptr (some t)))
                      refine ⟨fix', ?_⟩
                      simp only [buildFields, List.map_cons, buildField, hfind, hk]
                      rw [hct] at hfs
                      rw [if_pos hfs]
                      rw [heapUpdate_split _ _ _ _ _ hfresh]
                      rw [show defaultVal (FieldKind.reflectablePtr w) =
                        Val.ptr none from rfl]
                      rw [setField_split tid pre _ fd.fieldId (Val.ptr (some t))
                        (Val.ptr none) hprene hpostne]
                      rw [show (pre ++ (fd.fieldId, Val.ptr (some t)) ::
                        fds'.map (fun fd => ((fd.fieldId : Nat), defaultVal fd.kind))) =
                        ((pre ++ [(fd.fieldId, Val.ptr (some t))]) ++
                          fds'.map (fun fd => ((fd.fieldId : Nat), defaultVal fd.kind)))
                        by rw [List.append_cons]]
                      rw [List.append_cons pre _ (fs'.map _)]
                      rw [show partialVal (h1.map Prod.fst ++ rid :: h2.map Prod.fst)
                        (RVal.rptr (some t)) = Val.ptr (some t)
                        by rw [partialVal, hct]; rfl]
                      exact hrec
                  | false =>
                      obtain ⟨fix', hrec⟩ := ih
                        (pre ++ [(fd.fieldId, Val.ptr none)])
                        (fix ++ [⟨rid, fd.fieldId, t⟩]) hndrest
                        (hprerest (Val.ptr none))
                      refine ⟨fix', ?_⟩
                      simp only [buildFields, List.map_cons, buildField, hfind, hk]
                      rw [hct] at hfs
                      rw [if_neg (by rw [hfs]; exact Bool.false_ne_true)]
                      rw [show (pre ++ (fd.fieldId, defaultVal
                        (FieldKind.reflectablePtr w)) ::
                        fds'.map (fun fd => ((fd.fieldId : Nat), defaultVal fd.kind))) =
                        ((pre ++ [(fd.fieldId, Val.ptr none)]) ++
                          fds'.map (fun fd => ((fd.fieldId : Nat), defaultVal fd.kind)))
                        by rw [List.append_cons]; rfl]
                      rw [List.append_cons pre _ (fs'.map _)]
                      rw [show partialVal (h1.map Prod.fst ++ rid :: h2.map Prod.fst)
                        (RVal.rptr (some t)) = Val.ptr none
                        by rw [partialVal, hct]; rfl]
                      exact hrec

theorem partialHeap_fst (S : List Nat) (rs : List Record) :
    (partialHeap S rs).map Prod.fst = recordIds rs := by
  simp [partialHeap, recordIds]

theorem partialHeap_append (S : List Nat) (xs ys : List Record) :
    partialHeap S (xs ++ ys) = partialHeap S xs ++ partialHeap S ys := by
  simp [partialHeap]

theorem findType_typeId {R : Registry} {tid : Nat} {td : TypeDesc}
    (h : findType R tid = some td) : td.typeId = tid := by
  have := List.find?_some h
  simpa using this

theorem goodRecord_elim {R : Registry} {r : Record}
    (h : goodRecord R r = true) :
    ∃ td, findType R r.typeId = some td ∧
      strictSorted (td.fields.map FieldDesc.fieldId) = true ∧
      rfieldsAligned td.fields r.fields = true := by
  unfold goodRecord at h
  cases hft : findType R r.typeId with
  | none => rw [hft] at h; exact Bool.noConfusion h
  | some td =>
      rw [hft] at h
      simp only [Bool.and_eq_true] at h
      exact ⟨td, rfl, h.1, h.2⟩

theorem rfieldsAligned_mem_forall₂ {allFds : List FieldDesc}
    (hnd : (allFds.map FieldDesc.fieldId).Nodup) :
    ∀ {fds : List FieldDesc} {fs : List RField},
    (∀ fd ∈ fds, fd ∈ allFds) →
    rfieldsAligned fds fs = true →
    List.Forall₂ (fun fd f => f.fieldId = fd.fieldId ∧
      rvalMatch fd.kind f.val = true ∧
      allFds.find? (fun fd' => fd'.fieldId == f.fieldId) = some fd) fds fs
  | [], [], _, _ => List.Forall₂.nil
  | fd :: fds, f :: fs, hsub, h => by
      simp only [rfieldsAligned, Bool.and_eq_true, beq_iff_eq] at h
      refine List.Forall₂.cons ⟨h.1.1, h.1.2, ?_⟩
        (rfieldsAligned_mem_forall₂ hnd
          (fun fd' hfd' => hsub fd' (by simp [hfd'])) h.2)
      rw [h.1.1]
      exact find?_self_of_nodup hnd (hsub fd (by simp))
  | [], _ :: _, _, h => by simp [rfieldsAligned] at h
  | _ :: _, [], _, h => by simp [rfieldsAligned] at h

theorem goodRecord_forall₂ {R : Registry} {r : Record} {td : TypeDesc}
    (hft : findType R r.typeId = some td) (hg : goodRecord R r = true) :
    List.Forall₂ (fun fd f => f.fieldId = fd.fieldId ∧
      rvalMatch fd.kind f.val = true ∧
      td.fields.find? (fun fd' => fd'.fieldId == f.fieldId) = some fd)
      td.fields r.fields := by
  obtain ⟨td', hft', hsorted, haligned⟩ := goodRecord_elim hg
  rw [hft] at hft'
  injection hft' with htd
  subst htd
  exact rfieldsAligned_mem_forall₂ (strictSorted_nodup _ hsorted)
    (fun _ h => h) haligned

theorem goodRecord_fieldIds_nodup {R : Registry} {r : Record}
    (hg : goodRecord R r = true) :
    (r.fields.map RField.fieldId).Nodup := by
  obtain ⟨td, hft, hsorted, _⟩ := goodRecord_elim hg
  rw [forall₂_ids (goodRecord_forall₂ hft hg)]
  exact strictSorted_nodup _ hsorted

theorem partialVal_ptr_mem {S : List Nat} {t : Nat}
    (h : S.contains t = true) :
    partialVal S (.rptr (some t)) = .ptr (some t) := by
  rw [partialVal, h]
  rfl

theorem partialVal_ptr_not_mem {S : List Nat} {t : Nat}
    (h : S.contains t = false) :
    partialVal S (.rptr (some t)) = .ptr none := by
  rw [partialVal, h]
  rfl

theorem fieldOcc_shape {td : TypeDesc} {rid : Nat} {f : RField} {fx : Fixup}
    (h : fieldOcc td rid f = some fx) :
    fx.holder = rid ∧ fx.fieldId = f.fieldId ∧
      f.val = .rptr (some fx.target) := by
  cases hfind : td.fields.find? (fun fd => fd.fieldId == f.fieldId) with
  | none =>
      simp only [fieldOcc, hfind] at h
      exact Option.noConfusion h
  | some fd =>
      cases hk : fd.kind with
      | plain =>
          simp only [fieldOcc, hfind, hk] at h
          exact Option.noConfusion h
      | dataBlock =>
          simp only [fieldOcc, hfind, hk] at h
          exact Option.noConfusion h
      | reflectablePtr w =>
          cases hv : f.val with
          | rplain v =>
              simp only [fieldOcc, hfind, hk, hv] at h
              exact Option.noConfusion h
          | rblock bs =>
              simp only [fieldOcc, hfind, hk, hv] at h
              exact Option.noConfusion h
          | rptr ot =>
              cases ot with
              | none =>
                  simp only [fieldOcc, hfind, hk, hv] at h
                  exact Option.noConfusion h
              | some t =>
                  simp only [fieldOcc, hfind, hk, hv,
                    Option.some.injEq] at h
                  subst h
                  exact ⟨rfl, rfl, rfl⟩

theorem mem_recordFixups {td : TypeDesc} {r : Record} {fx : Fixup} :
    fx ∈ recordFixups td r ↔
      ∃ f ∈ r.fields, fieldOcc td r.refId f = some fx := by
  simp [recordFixups]

theorem mem_ptrFixupsOf {R : Registry} {rs : List Record} {fx : Fixup} :
    fx ∈ ptrFixupsOf R rs ↔ ∃ r ∈ rs, ∃ td, findType R r.typeId = some td ∧
      fx ∈ recordFixups td r := by
  unfold ptrFixupsOf
  rw [List.mem_flatMap]
  constructor
  · rintro ⟨r, hr, hmem⟩
    cases hft : findType R r.typeId with
    | none => rw [hft] at hmem; exact absurd hmem (by simp)
    | some td =>
        rw [hft] at hmem
        exact ⟨r, hr, td, hft, hmem⟩
  · rintro ⟨r, hr, td, hft, hmem⟩
    refine ⟨r, hr, ?_⟩
    rw [hft]
    exact hmem

theorem ptrFixupsOf_holder {R : Registry} {rs : List Record} {fx : Fixup}
    (h : fx ∈ ptrFixupsOf R rs) : fx.holder ∈ recordIds rs := by
  obtain ⟨r, hr, td, hft, hmem⟩ := mem_ptrFixupsOf.mp h
  obtain ⟨f, hf, hocc⟩ := mem_recordFixups.mp hmem
  obtain ⟨hh, _, _⟩ := fieldOcc_shape hocc
  rw [hh]
  exact List.mem_map_of_mem _ hr

theorem record_eq_of_refId {rs : List Record} (hnd : (recordIds rs).Nodup)
    {r1 r2 : Record} (h1 : r1 ∈ rs) (h2 : r2 ∈ rs)
    (he : r1.refId = r2.refId) : r1 = r2 :=
  List.inj_on_of_nodup_map hnd h1 h2 he

theorem rfield_eq_of_fieldId {fs : List RField}
    (hnd : (fs.map RField.fieldId).Nodup)
    {f1 f2 : RField} (h1 : f1 ∈ fs) (h2 : f2 ∈ fs)
    (he : f1.fieldId = f2.fieldId) : f1 = f2 :=
  List.inj_on_of_nodup_map hnd h1 h2 he

theorem fieldOcc_of_ptr {R : Registry} {r : Record} {td : TypeDesc}
    (hft : findType R r.typeId = some td) (hg : goodRecord R r = true)
    {f : RField} (hf : f ∈ r.fields) {t : Nat}
    (hv : f.val = .rptr (some t)) :
    fieldOcc td r.refId f = some ⟨r.refId, f.fieldId, t⟩ := by
  obtain ⟨fd, hfd, hid, hm, hfind⟩ :=
    forall₂_mem_right (goodRecord_forall₂ hft hg) f hf
  cases hk : fd.kind with
  | plain => rw [hk, hv] at hm; exact Bool.noConfusion hm
  | dataBlock => rw [hk, hv] at hm; exact Bool.noConfusion hm
  | reflectablePtr w => simp only [fieldOcc, hfind, hk, hv]

theorem fixup_mem_val {R : Registry} {done : List Record}
    (hnd : (recordIds done).Nodup)
    (hgood : ∀ r' ∈ done, goodRecord R r' = true)
    {r : Record} (hr : r ∈ done) {f : RField} (hf : f ∈ r.fields) {t : Nat}
    (hmem : (⟨r.refId, f.fieldId, t⟩ : Fixup) ∈ ptrFixupsOf R done) :
    f.val = .rptr (some t) := by
  obtain ⟨r2, hr2, td2, hft2, hmem2⟩ := mem_ptrFixupsOf.mp hmem
  obtain ⟨f2, hf2, hocc2⟩ := mem_recordFixups.mp hmem2
  obtain ⟨hh, hfid, hval⟩ := fieldOcc_shape hocc2
  have hrr : r = r2 := record_eq_of_refId hnd hr hr2 hh
  subst hrr
  have hff : f = f2 :=
    rfield_eq_of_fieldId (goodRecord_fieldIds_nodup (hgood r hr)) hf hf2 hfid
  rw [hff]
  exact hval

theorem wireField_staged {R : Registry} {done : List Record}
    (hnd : (recordIds done).Nodup)
    (hgood : ∀ r' ∈ done, goodRecord R r' = true)
    {rid : Nat} (hnotin : rid ∉ recordIds done)
    {r' : Record} (hr' : r' ∈ done) {f : RField} (hf : f ∈ r'.fields) :
    wireField rid
      ((ptrFixupsOf R done).filter
        (fun fx => !((recordIds done).contains fx.target))) r'.refId
      (f.fieldId, partialVal (recordIds done) f.val) =
    (f.fieldId, partialVal (recordIds done ++ [rid]) f.val) := by
  show (if (⟨r'.refId, f.fieldId, rid⟩ : Fixup) ∈
      (ptrFixupsOf R done).filter
        (fun fx => !((recordIds done).contains fx.target))
      then (f.fieldId, Val.ptr (some rid))
      else (f.fieldId, partialVal (recordIds done) f.val)) =
    (f.fieldId, partialVal (recordIds done ++ [rid]) f.val)
  by_cases hmem : (⟨r'.refId, f.fieldId, rid⟩ : Fixup) ∈
      (ptrFixupsOf R done).filter
        (fun fx => !((recordIds done).contains fx.target))
  · rw [if_pos hmem]
    have hval := fixup_mem_val hnd hgood hr' hf (List.mem_of_mem_filter hmem)
    rw [hval]
    rw [partialVal_ptr_mem (by rw [bsf_contains_append, bsf_contains_single]; simp)]
  · rw [if_neg hmem]
    cases hv2 : f.val with
    | rplain v => rfl
    | rblock bs => rfl
    | rptr ot =>
        cases ot with
        | none => rfl
        | some t =>
            by_cases hct : (recordIds done).contains t = true
            · rw [partialVal_ptr_mem hct,
                partialVal_ptr_mem (by rw [bsf_contains_append, hct]; rfl)]
            · have hctf : (recordIds done).contains t = false := by
                cases hcc : (recordIds done).contains t
                · rfl
                · exact absurd hcc hct
              by_cases htr : t = rid
              · exfalso
                apply hmem
                subst htr
                obtain ⟨td', hft', _, _⟩ := goodRecord_elim (hgood r' hr')
                have hocc := fieldOcc_of_ptr hft' (hgood r' hr') hf hv2
                refine List.mem_filter.mpr ⟨mem_ptrFixupsOf.mpr
                  ⟨r', hr', td', hft', mem_recordFixups.mpr ⟨f, hf, hocc⟩⟩, ?_⟩
                show (!((recordIds done).contains t)) = true
                rw [hctf]
                rfl
              · rw [partialVal_ptr_not_mem hctf,
                  partialVal_ptr_not_mem (by
                    rw [bsf_contains_append, hctf, bsf_contains_single]
                    simp [htr])]

theorem resolveFixups_staged (R : Registry) (done : List Record) (r : Record)
    (td : TypeDesc)
    (hnd : (recordIds done).Nodup)
    (hgood : ∀ r' ∈ done, goodRecord R r' = true)
    (hnotin : r.refId ∉ recordIds done) :
    resolveFixups
      ⟨partialHeap (recordIds done) done ++ [(r.refId, blankObj td)],
       (ptrFixupsOf R done).filter
         (fun fx => !((recordIds done).contains fx.target))⟩ r.refId
      = ⟨partialHeap (recordIds done ++ [r.refId]) done ++
           [(r.refId, blankObj td)],
         ((ptrFixupsOf R done).filter
            (fun fx => !((recordIds done).contains fx.target))).filter
           (fun fx => fx.target != r.refId)⟩ := by
  have hnomem : ∀ fid : Nat,
      (⟨r.refId, fid, r.refId⟩ : Fixup) ∉
        (ptrFixupsOf R done).filter
          (fun fx => !((recordIds done).contains fx.target)) := by
    intro fid hmem
    exact hnotin (ptrFixupsOf_holder (List.mem_of_mem_filter hmem))
  simp only [resolveFixups]
  congr 1
  rw [List.map_append]
  congr 1
  · rw [partialHeap, partialHeap, List.map_map]
    apply List.map_congr_left
    intro r' hr'
    show (r'.refId,
        (⟨r'.typeId, (r'.fields.map
            (fun f => (f.fieldId, partialVal (recordIds done) f.val))).map
          (wireField r.refId
            ((ptrFixupsOf R done).filter
              (fun fx => !((recordIds done).contains fx.target))) r'.refId)⟩
          : Obj)) =
      (r'.refId, ⟨r'.typeId, r'.fields.map
        (fun f => (f.fieldId, partialVal (recordIds done ++ [r.refId]) f.val))⟩)
    rw [List.map_map]
    refine congrArg _ (congrArg _ ?_)
    apply List.map_congr_left
    intro f hf
    exact wireField_staged hnd hgood hnotin hr' hf
  · show [(r.refId, (⟨(blankObj td).typeId, (blankObj td).fields.map
        (wireField r.refId
          ((ptrFixupsOf R done).filter
            (fun fx => !((recordIds done).contains fx.target))) r.refId)⟩
        : Obj))] = [(r.refId, blankObj td)]
    have hfieldsid : (blankObj td).fields.map
        (wireField r.refId
          ((ptrFixupsOf R done).filter
            (fun fx => !((recordIds done).contains fx.target))) r.refId) =
        (blankObj td).fields := by
      conv_rhs => rw [← List.map_id (blankObj td).fields]
      apply List.map_congr_left
      intro p hp
      show (if (⟨r.refId, p.1, r.refId⟩ : Fixup) ∈
          (ptrFixupsOf R done).filter
            (fun fx => !((recordIds done).contains fx.target))
          then (p.1, Val.ptr (some r.refId)) else p) = id p
      rw [if_neg (hnomem p.1)]
      rfl
    rw [hfieldsid]

theorem buildRecord_staged (R : Registry) (done : List Record) (r : Record)
    (hnd : (recordIds (done ++ [r])).Nodup)
    (hgood : ∀ r' ∈ done ++ [r], goodRecord R r' = true) :
    ∃ fix', buildRecord R r
      ⟨partialHeap (recordIds done) done,
       (ptrFixupsOf R done).filter
         (fun fx => !((recordIds done).contains fx.target))⟩
      = .ok ⟨partialHeap (recordIds done ++ [r.refId]) (done ++ [r]), fix'⟩ := by
  have hgr : goodRecord R r = true := hgood r (by simp)
  obtain ⟨td, hft, hsorted, haligned⟩ := goodRecord_elim hgr
  have hnd' := hnd
  rw [recordIds_append] at hnd'
  have hndd : (recordIds done).Nodup := hnd'.of_append_left
  have hdisj := List.disjoint_of_nodup_append hnd'
  have hnotin : r.refId ∉ recordIds done :=
    fun hc => hdisj hc (by simp [recordIds])
  have hgoodd : ∀ r' ∈ done, goodRecord R r' = true :=
    fun r' hr' => hgood r' (List.mem_append_left _ hr')
  simp only [buildRecord, hft]
  rw [resolveFixups_staged R done r td hndd hgoodd hnotin]
  have hfresh : r.refId ∉
      (partialHeap (recordIds done ++ [r.refId]) done ++
        ([] : List (Nat × Obj))).map Prod.fst := by
    rw [List.append_nil, partialHeap_fst]
    exact hnotin
  have hfa := goodRecord_forall₂ hft hgr
  have hndf : (r.fields.map RField.fieldId).Nodup := by
    rw [forall₂_ids hfa]
    exact strictSorted_nodup _ hsorted
  obtain ⟨fix', heq⟩ := buildFields_heap td r.refId td.typeId
    (partialHeap (recordIds done ++ [r.refId]) done) [] hfresh hfa []
    (((ptrFixupsOf R done).filter
        (fun fx => !((recordIds done).contains fx.target))).filter
      (fun fx => fx.target != r.refId))
    hndf (fun f _ p hp => absurd hp (by simp))
  rw [partialHeap_fst] at heq
  rw [findType_typeId hft] at heq
  refine ⟨fix', ?_⟩
  rw [partialHeap_append]
  rw [show blankObj td = (⟨r.typeId, td.fields.map
      (fun fd => (fd.fieldId, defaultVal fd.kind))⟩ : Obj) from by
    rw [blankObj, findType_typeId hft]]
  exact heq

theorem fixups_step_canonical (R : Registry) (rs1 : List Record) (r : Record)
    (td : TypeDesc) (hft : findType R r.typeId = some td) :
    ((ptrFixupsOf R rs1).filter
        (fun fx => !((recordIds rs1).contains fx.target))).filter
        (fun fx => fx.target != r.refId) ++
      (recordFixups td r).filter
        (fun fx => !((recordIds rs1 ++ [r.refId]).contains fx.target)) =
    (ptrFixupsOf R (rs1 ++ [r])).filter
      (fun fx => !((recordIds (rs1 ++ [r])).contains fx.target)) := by
  rw [ptrFixupsOf_append, List.filter_append, ptrFixupsOf_single R r td hft]
  congr 1
  · rw [List.filter_filter]
    apply List.filter_congr
    intro fx _
    show ((fx.target != r.refId) && !((recordIds rs1).contains fx.target))
      = !((recordIds (rs1 ++ [r])).contains fx.target)
    rw [recordIds_append, show recordIds [r] = [r.refId] from rfl,
      bsf_contains_append, bsf_contains_single, Bool.not_or]
    exact Bool.and_comm _ _
  · apply List.filter_congr
    intro fx _
    show (!((recordIds rs1 ++ [r.refId]).contains fx.target))
      = !((recordIds (rs1 ++ [r])).contains fx.target)
    rw [recordIds_append]
    rfl

theorem buildAll_staged (R : Registry) :
    ∀ (rs2 rs1 : List Record),
    (recordIds (rs1 ++ rs2)).Nodup →
    (∀ r' ∈ rs1 ++ rs2, goodRecord R r' = true) →
    ∃ fix', buildAll R rs2
      ⟨partialHeap (recordIds rs1) rs1,
       (ptrFixupsOf R rs1).filter
         (fun fx => !((recordIds rs1).contains fx.target))⟩
      = .ok ⟨partialHeap (recordIds (rs1 ++ rs2)) (rs1 ++ rs2), fix'⟩ ∧
      fix' = (ptrFixupsOf R (rs1 ++ rs2)).filter
        (fun fx => !((recordIds (rs1 ++ rs2)).contains fx.target))
  | [], rs1, hnd, hgood => by
      rw [List.append_nil]
      exact ⟨_, rfl, rfl⟩
  | r :: rs2, rs1, hnd, hgood => by
      have heq0 : rs1 ++ r :: rs2 = (rs1 ++ [r]) ++ rs2 := by simp
      rw [heq0] at hnd hgood ⊢
      have hnd' := hnd
      rw [recordIds_append] at hnd'
      have hndl : (recordIds (rs1 ++ [r])).Nodup := hnd'.of_append_left
      have hgoodl : ∀ r' ∈ rs1 ++ [r], goodRecord R r' = true :=
        fun r' hr' => hgood r' (List.mem_append_left _ hr')
      obtain ⟨fixr, hrec⟩ := buildRecord_staged R rs1 r hndl hgoodl
      obtain ⟨td, hft, hcids, hfxeq⟩ := buildRecord_ok R r _ _ hrec
      have h1 : (⟨partialHeap (recordIds rs1) rs1, (ptrFixupsOf R rs1).filter
          (fun fx => !((recordIds rs1).contains fx.target))⟩
            : DecState).constructedIds = recordIds rs1 := by
        show (partialHeap (recordIds rs1) rs1).map Prod.fst = recordIds rs1
        exact partialHeap_fst _ _
      rw [h1] at hfxeq
      have hfixr : fixr = (ptrFixupsOf R (rs1 ++ [r])).filter
          (fun fx => !((recordIds (rs1 ++ [r])).contains fx.target)) := by
        calc fixr
            = (⟨partialHeap (recordIds rs1 ++ [r.refId]) (rs1 ++ [r]), fixr⟩
                : DecState).fixups := rfl
          _ = ((ptrFixupsOf R rs1).filter
                (fun fx => !((recordIds rs1).contains fx.target))).filter
                (fun fx => fx.target != r.refId) ++
              (recordFixups td r).filter
                (fun fx => !((recordIds rs1 ++ [r.refId]).contains fx.target))
              := hfxeq
          _ = (ptrFixupsOf R (rs1 ++ [r])).filter
                (fun fx => !((recordIds (rs1 ++ [r])).contains fx.target))
              := fixups_step_canonical R rs1 r td hft
      obtain ⟨fix2, hall, hfix2⟩ := buildAll_staged R rs2 (rs1 ++ [r]) hnd hgood
      refine ⟨fix2, ?_, hfix2⟩
      simp only [buildAll, hrec]
      rw [hfixr]
      have hrid : recordIds (rs1 ++ [r]) = recordIds rs1 ++ [r.refId] := by
        simp [recordIds]
      rw [← hrid]
      exact hall

theorem build_good (R : Registry) (r0 : Record) (rest : List Record)
    (hgood : GoodRecords R (r0 :: rest)) :
    build R (r0 :: rest) =
      .ok ⟨partialHeap (recordIds (r0 :: rest)) (r0 :: rest), r0.refId⟩ := by
  obtain ⟨hnd, hg, hcl⟩ := hgood
  obtain ⟨fix', hall, hfix⟩ := buildAll_staged R (r0 :: rest) []
    (by simpa using hnd) (by simpa using hg)
  have hfixnil : fix' = [] := by
    rw [hfix]
    rw [List.filter_eq_nil_iff]
    intro fx hfx
    have hmem : fx.target ∈ recordIds (r0 :: rest) :=
      hcl fx (by simpa using hfx)
    simp only [List.append_nil, List.nil_append]
    simp
    exact hmem
  have hall' : buildAll R (r0 :: rest) ⟨[], []⟩ =
      .ok ⟨partialHeap (recordIds (r0 :: rest)) (r0 :: rest), fix'⟩ := hall
  simp only [build, hall', hfixnil]

theorem parseVal_enc (rv : RVal) (rest : List Nat) :
    parseVal (encRVal rv).1 (encRVal rv).2.length ((encRVal rv).2 ++ rest) =
      some (rv, rest) := by
  have hcore : parseValCore (encRVal rv).1 (encRVal rv).2 = some rv := by
    cases rv with
    | rplain v => rfl
    | rblock bs => rfl
    | rptr ot =>
        cases ot with
        | none => rfl
        | some i => rfl
  unfold parseVal
  rw [if_pos (by simp)]
  rw [List.take_left, List.drop_left, hcore]
  rfl

theorem parseFields_enc :
    ∀ (fs : List RField) (rest : List Nat),
    parseFields fs.length ((fs.map encField).flatten ++ rest) = some (fs, rest)
  | [], rest => rfl
  | f :: fs, rest => by
      rcases henc : encRVal f.val with ⟨tag, payload⟩
      have hEF : encField f =
          f.fieldId :: tag :: 0 :: payload.length :: payload := by
        rw [encField, henc]
      rw [List.map_cons, List.flatten_cons, hEF, List.append_assoc]
      show parseFields (fs.length + 1) (f.fieldId :: tag :: 0 ::
        payload.length ::
        (payload ++ ((fs.map encField).flatten ++ rest))) = some (f :: fs, rest)
      have hpv : parseVal tag payload.length
          (payload ++ ((fs.map encField).flatten ++ rest)) =
          some (f.val, (fs.map encField).flatten ++ rest) := by
        have h := parseVal_enc f.val ((fs.map encField).flatten ++ rest)
        rw [henc] at h
        exact h
      simp only [parseFields, hpv, parseFields_enc fs rest]

theorem serialize_length_ge (rs : List Record) :
    rs.length ≤ (serialize rs).length := by
  induction rs with
  | nil => simp [serialize]
  | cons r rs ih =>
      have h4 : 4 ≤ (encRecord r).length := by
        simp [encRecord]
      have hser : serialize (r :: rs) = encRecord r ++ serialize rs := by
        simp [serialize]
      rw [hser, List.length_append, List.length_cons]
      omega

theorem parseRecords_serialize :
    ∀ (rs : List Record) (fuel : Nat), rs.length ≤ fuel →
    parseRecords fuel (serialize rs) = some rs
  | [], fuel, _ => by
      show parseRecords fuel [] = some []
      cases fuel <;> rfl
  | r :: rs, fuel, hle => by
      cases fuel with
      | zero => exact absurd hle (by simp)
      | succ f =>
          have hser : serialize (r :: rs) = encRecord r ++ serialize rs := by
            simp [serialize]
          rw [hser, encRecord, List.cons_append, List.cons_append,
            List.cons_append, List.cons_append]
          have hrs : parseRecords f (serialize rs) = some rs :=
            parseRecords_serialize rs f (by
              simp only [List.length_cons] at hle
              omega)
          simp only [parseRecords, parseFields_enc r.fields (serialize rs), hrs]

theorem parse_serialize (rs : List Record) : parse (serialize rs) = some rs :=
  parseRecords_serialize rs (serialize rs).length (serialize_length_ge rs)

theorem partialObj_complete {R : Registry} {rs : List Record}
    (hg : ∀ r' ∈ rs, goodRecord R r' = true)
    (hcl : ∀ fx ∈ ptrFixupsOf R rs, fx.target ∈ recordIds rs)
    {r : Record} (hr : r ∈ rs) :
    partialObj (recordIds rs) r = objOfRecord r := by
  unfold partialObj objOfRecord
  congr 1
  apply List.map_congr_left
  intro f hf
  cases hv : f.val with
  | rplain v => rfl
  | rblock bs => rfl
  | rptr ot =>
      cases ot with
      | none => rfl
      | some t =>
          obtain ⟨td, hft, _, _⟩ := goodRecord_elim (hg r hr)
          have hocc := fieldOcc_of_ptr hft (hg r hr) hf hv
          have hmem : (⟨r.refId, f.fieldId, t⟩ : Fixup) ∈ ptrFixupsOf R rs :=
            mem_ptrFixupsOf.mpr
              ⟨r, hr, td, hft, mem_recordFixups.mpr ⟨f, hf, hocc⟩⟩
          have ht : t ∈ recordIds rs := hcl _ hmem
          rw [partialVal_ptr_mem ((bsf_contains_iff_mem _ _).mpr ht)]
          rfl

theorem find?_pair_of_nodup :
    ∀ {ps : List (Nat × Val)}, (ps.map Prod.fst).Nodup →
    ∀ {p : Nat × Val}, p ∈ ps →
    ps.find? (fun q => q.1 == p.1) = some p
  | [], _, p, hmem => absurd hmem (by simp)
  | p0 :: ps, hnd, p, hmem => by
      simp only [List.map_cons, List.nodup_cons] at hnd
      rcases List.mem_cons.mp hmem with rfl | hmem2
      · rw [List.find?_cons_of_pos _ (by simp)]
      · have hne : p0.1 ≠ p.1 := by
          intro hcontra
          exact hnd.1 (by rw [hcontra]; exact List.mem_map_of_mem _ hmem2)
        rw [List.find?_cons_of_neg _ (by simp [hne])]
        exact find?_pair_of_nodup hnd.2 hmem2

theorem partialHeap_find {S : List Nat} :
    ∀ {rs : List Record}, (recordIds rs).Nodup →
    ∀ {r : Record}, r ∈ rs →
    (partialHeap S rs).find? (fun p => p.1 == r.refId) =
      some (r.refId, partialObj S r)
  | [], _, r, hr => absurd hr (by simp)
  | r0 :: rs, hnd, r, hr => by
      show ((r0.refId, partialObj S r0) :: partialHeap S rs).find?
        (fun p => p.1 == r.refId) = some (r.refId, partialObj S r)
      simp only [recordIds, List.map_cons, List.nodup_cons] at hnd
      rcases List.mem_cons.mp hr with rfl | hr2
      · rw [List.find?_cons_of_pos _ (by simp)]
      · have hne : r0.refId ≠ r.refId := by
          intro hcontra
          exact hnd.1 (by rw [hcontra]; exact List.mem_map_of_mem _ hr2)
        rw [List.find?_cons_of_neg _ (by simp [hne])]
        exact partialHeap_find hnd.2 hr2

theorem forall₂_fst_ids {G : Graph} :
    ∀ {fds : List FieldDesc} {ps : List (Nat × Val)},
    List.Forall₂ (fun fd (p : Nat × Val) =>
      p.1 = fd.fieldId ∧ kindMatch G fd.kind p.2 = true) fds ps →
    ps.map Prod.fst = fds.map FieldDesc.fieldId := by
  intro fds ps h
  induction h with
  | nil => rfl
  | cons hrel _ ih => simp [ih, hrel.1]

theorem aligned_fieldVal {G : Graph} {o : Obj}
    (hnd : (o.fields.map Prod.fst).Nodup) :
    ∀ {fds : List FieldDesc} {ps : List (Nat × Val)},
    List.Forall₂ (fun fd (p : Nat × Val) =>
      p.1 = fd.fieldId ∧ kindMatch G fd.kind p.2 = true) fds ps →
    (∀ p ∈ ps, p ∈ o.fields) →
    List.Forall₂ (fun fd (p : Nat × Val) =>
      p.1 = fd.fieldId ∧ kindMatch G fd.kind p.2 = true ∧
        o.fieldVal fd = p.2) fds ps := by
  intro fds ps hfa hsub
  induction hfa with
  | nil => exact List.Forall₂.nil
  | cons hrel hrest ih =>
      rename_i fd p fds' ps'
      refine List.Forall₂.cons ⟨hrel.1, hrel.2, ?_⟩
        (ih (fun q hq => hsub q (by simp [hq])))
      have hpmem : p ∈ o.fields := hsub p (by simp)
      obtain ⟨p1, p2⟩ := p
      obtain ⟨hid, hkm⟩ := hrel
      have hfind := find?_pair_of_nodup hnd hpmem
      rw [show (p1, p2).1 = fd.fieldId from hid] at hfind
      have hid' : p1 = fd.fieldId := hid
      subst hid'
      exact fieldVal_of_find o fd p2 hfind

theorem bsf_forall₂_swap {α β : Type} {r : α → β → Prop} :
    ∀ {xs : List α} {ys : List β}, List.Forall₂ r xs ys →
    List.Forall₂ (fun b a => r a b) ys xs := by
  intro xs ys h
  induction h with
  | nil => exact List.Forall₂.nil
  | cons hrel _ ih => exact List.Forall₂.cons hrel ih

theorem forall₂_map_right {α β γ : Type} {r : α → γ → Prop} {f : β → γ} :
    ∀ {xs : List α} {ys : List β}, List.Forall₂ (fun a b => r a (f b)) xs ys →
    List.Forall₂ r xs (ys.map f) := by
  intro xs ys h
  induction h with
  | nil => exact List.Forall₂.nil
  | cons hrel _ ih => exact List.Forall₂.cons hrel ih

theorem bsf_forall₂_imp {α β : Type} {r s : α → β → Prop}
    (h : ∀ a b, r a b → s a b) :
    ∀ {xs : List α} {ys : List β}, List.Forall₂ r xs ys →
    List.Forall₂ s xs ys := by
  intro xs ys hf
  induction hf with
  | nil => exact List.Forall₂.nil
  | cons hrel _ ih => exact List.Forall₂.cons (h _ _ hrel) ih

theorem objMatch_render_staged {G : Graph}
    {φ : List (Nat × Nat)} {S : List Nat} {td : TypeDesc} {o : Obj}
    (hsorted : strictSorted (td.fields.map FieldDesc.fieldId) = true)
    (haligned : fieldsAligned G td.fields o.fields = true)
    (hassign : ∀ t ∈ G.keys, (alookup φ t).isSome = true)
    (hS : ∀ t ∈ G.keys, S.contains ((alookup φ t).getD 0) = true) :
    List.Forall₂ (fun (p q : Nat × Val) =>
      q.1 = p.1 ∧ Val.rename φ p.2 = some q.2)
      o.fields
      (td.fields.map (fun fd =>
        (fd.fieldId, partialVal S (renderVal φ fd.kind (o.fieldVal fd))))) := by
  have hfa := fieldsAligned_forall₂ G td.fields o.fields haligned
  have hnd : (o.fields.map Prod.fst).Nodup := by
    rw [forall₂_fst_ids hfa]
    exact strictSorted_nodup _ hsorted
  have hfa2 := aligned_fieldVal hnd hfa (fun p hp => hp)
  apply forall₂_map_right
  apply bsf_forall₂_swap
  refine bsf_forall₂_imp ?_ hfa2
  intro fd p hrel
  obtain ⟨hid, hkm, hval⟩ := hrel
  refine ⟨hid.symm, ?_⟩
  rw [← hval]
  cases hk : fd.kind with
  | plain =>
      cases hv : o.fieldVal fd with
      | plain n => rfl
      | block bs => rw [← hval, hv, hk] at hkm; exact Bool.noConfusion hkm
      | ptr op => rw [← hval, hv, hk] at hkm; exact Bool.noConfusion hkm
  | dataBlock =>
      cases hv : o.fieldVal fd with
      | plain n => rw [← hval, hv, hk] at hkm; exact Bool.noConfusion hkm
      | block bs => rfl
      | ptr op => rw [← hval, hv, hk] at hkm; exact Bool.noConfusion hkm
  | reflectablePtr w =>
      cases hv : o.fieldVal fd with
      | plain n => rw [← hval, hv, hk] at hkm; exact Bool.noConfusion hkm
      | block bs => rw [← hval, hv, hk] at hkm; exact Bool.noConfusion hkm
      | ptr op =>
          cases op with
          | none => rfl
          | some t =>
              rw [← hval, hv, hk] at hkm
              have htkey : t ∈ G.keys := by
                have hco : G.keys.contains t = true := hkm
                exact (bsf_contains_iff_mem _ _).mp hco
              have hsome := hassign t htkey
              cases hlook : alookup φ t with
              | none => rw [hlook] at hsome; exact Bool.noConfusion hsome
              | some i =>
                  have hSc : S.contains i = true := by
                    have := hS t htkey
                    rw [hlook] at this
                    exact this
                  show (alookup φ t).map (fun j => Val.ptr (some j)) =
                    some (partialVal S (.rptr (some ((alookup φ t).getD 0))))
                  rw [hlook]
                  show some (Val.ptr (some i)) =
                    some (partialVal S (.rptr (some i)))
                  rw [partialVal_ptr_mem hSc]

theorem objMatch_fields_staged {G : Graph}
    {φ : List (Nat × Nat)} {S : List Nat} {td : TypeDesc} {o : Obj}
    (hsorted : strictSorted (td.fields.map FieldDesc.fieldId) = true)
    (haligned : fieldsAligned G td.fields o.fields = true)
    (hassign : ∀ t ∈ G.keys, (alookup φ t).isSome = true)
    (hS : ∀ t ∈ G.keys, S.contains ((alookup φ t).getD 0) = true) :
    List.Forall₂ (fun (p q : Nat × Val) =>
      q.1 = p.1 ∧ Val.rename φ p.2 = some q.2)
      o.fields
      ((renderFields φ td.fields o).map
        (fun f => (f.fieldId, partialVal S f.val))) := by
  rw [renderFields, List.map_map]
  exact objMatch_render_staged hsorted haligned hassign hS

theorem encode_decode_iso {R : Registry} {G : Graph} (hWF : WF R G)
    (hcover : StrongCover R G) :
    ∃ toks G' φ, encode R G = some toks ∧ decode R toks = Except.ok G' ∧
      GraphIso φ G G' := by
  obtain ⟨rs, stF, hwalk, hInv, hroot0, P, hPerm, hHead, hAll, hStrong, hAny⟩ :=
    walkFull_char hWF
  have hPseen : ∀ a : Nat, a ∈ P ↔ a ∈ stF.seen := fun a => hPerm.mem_iff
  have hclosed : ∀ a ∈ stF.seen, ∀ b ∈ strongSuccs R G a, b ∈ stF.seen :=
    fun a ha b hb => hStrong a ((hPseen a).mpr ha) b hb
  have hrootP : G.root ∈ P := by
    cases hP : P with
    | nil => rw [hP] at hHead; exact Option.noConfusion hHead
    | cons x P' =>
        rw [hP] at hHead
        simp only [List.head?_cons, Option.some.injEq] at hHead
        rw [hHead]
        exact List.mem_cons_self _ _
  have hkey_seen : ∀ t ∈ G.keys, t ∈ stF.seen := by
    intro t ht
    refine closure_subset hclosed G.heap.length [G.root] ?_ t (hcover t ht)
    intro y hy
    have hy' : y = G.root := by simpa using hy
    subst hy'
    exact (hPseen _).mp hrootP
  have hkeyP : ∀ t ∈ G.keys, t ∈ P :=
    fun t ht => (hPseen t).mpr (hkey_seen t ht)
  have hPassigned : ∀ a ∈ P, (alookup stF.idOf a).isSome = true :=
    fun a ha => hInv.seenAssigned a ((hPseen a).mp ha)
  have hkassigned : ∀ t ∈ G.keys, (alookup stF.idOf t).isSome = true :=
    fun t ht => hPassigned t (hkeyP t ht)
  have hPnd : P.Nodup := hPerm.nodup_iff.mpr hInv.seenNodup
  have hids : recordIds rs = P.map (fun a => (alookup stF.idOf a).getD 0) :=
    recordIds_of_forall₂ hAll
  have hidsnd : (recordIds rs).Nodup := by
    rw [hids]
    exact nodup_map_lookup hInv.idValsNodup P hPnd hPassigned
  have hmemids : ∀ t ∈ P, (alookup stF.idOf t).getD 0 ∈ recordIds rs := by
    intro t ht
    rw [hids]
    exact List.mem_map_of_mem _ ht
  have hkS : ∀ t ∈ G.keys,
      (recordIds rs).contains ((alookup stF.idOf t).getD 0) = true :=
    fun t ht => (bsf_contains_iff_mem _ _).mpr (hmemids t (hkeyP t ht))
  have hgoodrec : ∀ r ∈ rs, goodRecord R r = true := by
    intro r hr
    obtain ⟨a, haP, o, td, hget, hft, hrend⟩ := forall₂_mem_right hAll r hr
    subst hrend
    obtain ⟨td2, hft2, hsorted, haligned⟩ := WF_typed hWF hget
    rw [hft] at hft2
    injection hft2 with htd
    subst htd
    simp only [goodRecord, renderRecord, hft]
    rw [hsorted, rfieldsAligned_render]
    rfl
  have hfxclosed : ∀ fx ∈ ptrFixupsOf R rs, fx.target ∈ recordIds rs := by
    intro fx hfx
    obtain ⟨r, hr, td, hft, hmemr⟩ := mem_ptrFixupsOf.mp hfx
    obtain ⟨a, haP, o, td2, hget, hft2, hrend⟩ := forall₂_mem_right hAll r hr
    subst hrend
    have hfto : findType R o.typeId = some td := hft
    rw [hft2] at hfto
    injection hfto with htd
    subst htd
    obtain ⟨td3, hft3, hsorted, haligned⟩ := WF_typed hWF hget
    rw [hft2] at hft3
    injection hft3 with htd3
    subst htd3
    obtain ⟨fd, hfd, w, t, hkind, hval, htarget⟩ :=
      recordFixups_render hsorted fx hmemr
    have htkey : t ∈ G.keys := WF_hkm hsorted haligned fd hfd w t hkind hval
    rw [htarget]
    exact hmemids t (hkeyP t htkey)
  have hGood : GoodRecords R rs := ⟨hidsnd, hgoodrec, hfxclosed⟩
  cases hrsc : rs with
  | nil =>
      rw [hrsc] at hAll
      cases hAll
      exact absurd hrootP (by simp)
  | cons r0 rest =>
      rw [hrsc] at hGood hgoodrec hfxclosed hidsnd hmemids hids hAll hwalk hkS
      have hbuild := build_good R r0 rest hGood
      have hAll2 := hAll
      cases hP : P with
      | nil =>
          rw [hP] at hHead
          exact Option.noConfusion hHead
      | cons a0 P0 =>
          rw [hP] at hAll2 hAll hHead hkeyP hPassigned hmemids
          have ha0 : a0 = G.root := by simpa using hHead
          subst ha0
          cases hAll2 with
          | cons hrel0 hrest0 =>
              obtain ⟨o0, td0, hget0, hft0, hr0⟩ := hrel0
              have hrid0 : r0.refId = 0 := by
                rw [hr0]
                show (alookup stF.idOf G.root).getD 0 = 0
                rw [hroot0]
                rfl
              refine ⟨serialize (r0 :: rest),
                ⟨partialHeap (recordIds (r0 :: rest)) (r0 :: rest), r0.refId⟩,
                stF.idOf, ?_, ?_, ?_⟩
              · show (walk R G).map serialize = some (serialize (r0 :: rest))
                rw [walk, hwalk]
                rfl
              · show decode R (serialize (r0 :: rest)) = Except.ok _
                simp only [decode, parse_serialize]
                exact hbuild
              · refine ⟨?_, ?_, ?_, ?_⟩
                · show alookup stF.idOf G.root = some r0.refId
                  rw [hrid0]
                  exact hroot0
                · intro a o hget
                  have hakey : a ∈ G.keys :=
                    (graph_get_isSome_iff G a).mp (by rw [hget]; rfl)
                  have haP : a ∈ G.root :: P0 := hkeyP a hakey
                  obtain ⟨r, hrmem, o2, td2, hget2, hft2, hrend⟩ :=
                    forall₂_mem_left hAll a haP
                  rw [hget] at hget2
                  injection hget2 with ho2
                  subst ho2
                  obtain ⟨i, hlook⟩ : ∃ i, alookup stF.idOf a = some i := by
                    cases hl : alookup stF.idOf a with
                    | none =>
                        have hps := hPassigned a haP
                        rw [hl] at hps
                        exact Bool.noConfusion hps
                    | some i => exact ⟨i, rfl⟩
                  have hrid : r.refId = i := by
                    rw [hrend]
                    show (alookup stF.idOf a).getD 0 = i
                    rw [hlook]
                    rfl
                  refine ⟨i, partialObj (recordIds (r0 :: rest)) r,
                    hlook, ?_, ?_⟩
                  · show ((partialHeap (recordIds (r0 :: rest))
                        (r0 :: rest)).find? (fun p => p.1 == i)).map Prod.snd =
                      some (partialObj (recordIds (r0 :: rest)) r)
                    rw [← hrid, partialHeap_find hidsnd hrmem]
                    rfl
                  · subst hrend
                    obtain ⟨td3, hft3, hsorted, haligned⟩ := WF_typed hWF hget
                    rw [hft2] at hft3
                    injection hft3 with htd
                    subst htd
                    refine ⟨rfl, ?_⟩
                    exact objMatch_fields_staged hsorted haligned hkassigned
                      (fun t ht => hkS t ht)
                · intro a1 a2 b h1 h2
                  exact alookup_inj hInv.idValsNodup h1 h2
                · intro b o' hget'
                  have hmemb := graph_get_mem hget'
                  obtain ⟨r, hrmem, hbeq⟩ := List.mem_map.mp hmemb
                  obtain ⟨a, haP, o2, td2, hget2, hft2, hrend⟩ :=
                    forall₂_mem_right hAll r hrmem
                  obtain ⟨i, hlook⟩ : ∃ i, alookup stF.idOf a = some i := by
                    cases hl : alookup stF.idOf a with
                    | none =>
                        have hps := hPassigned a haP
                        rw [hl] at hps
                        exact Bool.noConfusion hps
                    | some i => exact ⟨i, rfl⟩
                  have hb : b = i := by
                    have h1 : r.refId = b := congrArg Prod.fst hbeq
                    rw [← h1, hrend]
                    show (alookup stF.idOf a).getD 0 = i
                    rw [hlook]
                    rfl
                  refine ⟨a, ?_, ?_⟩
                  · rw [hb]
                    exact hlook
                  · rw [hget2]
                    rfl

/-- C1 (corrected): for every well-formed object graph with no cycle made
entirely of non-weak edges, in which additionally every object is reachable
from the root through non-weak edges, `decode (encode G)` succeeds and
yields a graph isomorphic to `G`: same field values up to the injective
reference-id renaming, so two fields that pointed at the identical object
still point at the identical reconstructed object. The added reachability
condition is necessary: a weak edge emits only a reference id without
scheduling a visit, so an object reachable only through weak edges is never
emitted and decoding aborts with `DanglingReferenceError`. -/
theorem c1_round_trip_iso (R : Registry) (G : Graph) (hWF : WF R G)
    (hacyclic : StrongAcyclic R G) (hcover : StrongCover R G) :
    ∃ toks G' φ, encode R G = some toks ∧ decode R toks = Except.ok G' ∧
      GraphIso φ G G' :=
  encode_decode_iso hWF hcover

/-- C1 witness: the sharing graph (a root with two strong pointers to the
same object) round-trips into an isomorphic graph; well-formedness, strong
acyclicity and strong coverage hold by computation. -/
theorem c1_round_trip_iso_witness :
    ∃ toks G' φ, encode regShare graphShare = some toks ∧
      decode regShare toks = Except.ok G' ∧ GraphIso φ graphShare G' :=
  c1_round_trip_iso regShare graphShare (by unfold WF; decide)
    (by unfold StrongAcyclic; decide) (by unfold StrongCover; decide)

/-- C1 counterexample: a well-formed graph with no cycle of non-weak edges
(object 30 hangs off the root through a weak edge only); encoding succeeds
but emits no record for object 30, and decoding fails with
`DanglingReferenceError` instead of yielding an isomorphic graph, refuting
the round-trip claim as stated. -/
theorem c1_counterexample :
    WF regWeak graphWeakDangle ∧ StrongAcyclic regWeak graphWeakDangle ∧
    ∃ toks, encode regWeak graphWeakDangle = some toks ∧
      decode regWeak toks =
        Except.error (DecodeError.danglingReference 1) := by
  refine ⟨by unfold WF; decide, by unfold StrongAcyclic; decide,
    [0, 100, 7, 3, 1, 0, 0, 1, 5, 2, 3, 0, 1, 0, 3, 3, 0, 1, 2], ?_, ?_⟩
  · decide
  · rfl

/-- C5 (corrected): for every well-formed graph containing a cycle closed by
a weak `ReflectablePtr` back-edge, in which additionally every object is
reachable from the root through non-weak edges, encoding terminates with a
token stream (the weak edge emits only the reference id, without forcing a
recursive visit) and the subsequent decode completes without a
`DanglingReferenceError`. The added reachability condition is necessary:
an object reachable only through weak edges is never emitted and decoding
fails. -/
theorem c5_weak_cycle_round_trip (R : Registry) (G : Graph) (hWF : WF R G)
    (hcycle : HasWeakCycle R G) (hcover : StrongCover R G) :
    ∃ toks, encode R G = some toks ∧
      ∃ G', decode R toks = Except.ok G' := by
  obtain ⟨toks, G', φ, henc, hdec, _⟩ := encode_decode_iso hWF hcover
  exact ⟨toks, henc, G', hdec⟩

/-- C5 witness: the concrete weak cycle (10 → 20 non-weak, 20 → 10 weak)
encodes to a finite stream and decodes successfully; the hypotheses hold by
computation. -/
theorem c5_weak_cycle_round_trip_witness :
    ∃ toks, encode regWeak graphWeakCycle = some toks ∧
      ∃ G', decode regWeak toks = Except.ok G' :=
  c5_weak_cycle_round_trip regWeak graphWeakCycle (by unfold WF; decide)
    (by unfold HasWeakCycle; decide) (by unfold StrongCover; decide)

/-- C5 counterexample: a well-formed graph with the weak-closed cycle
(10 → 20 non-weak, 20 → 10 weak) plus an object 30 reachable only through a
weak edge; encoding terminates, but decoding fails with
`DanglingReferenceError` for the never-emitted reference id 2, refuting the
claim as stated for graphs that merely contain a weak-flagged cycle. -/
theorem c5_counterexample :
    WF regWeak graphWeakCycleDangle ∧
    HasWeakCycle regWeak graphWeakCycleDangle ∧
    ∃ toks, encode regWeak graphWeakCycleDangle = some toks ∧
      decode regWeak toks =
        Except.error (DecodeError.danglingReference 2) := by
  refine ⟨by unfold WF; decide, by unfold HasWeakCycle; decide,
    [0, 100, 7, 3, 1, 0, 0, 1, 5, 2, 3, 0, 1, 2, 3, 3, 0, 1, 3,
     1, 100, 7, 3, 1, 0, 0, 1, 6, 2, 3, 0, 1, 0, 3, 3, 0, 1, 1], ?_, ?_⟩
  · decide
  · rfl
